import Mathlib

/-!
Verification of the cluster-detection and contact-aggregation engine of
`clustering_prot.py` against its specification.

The Python source is shallowly embedded: numpy arrays become functions or
lists over `ℚ`/`ℕ`/`ℤ`, Python dicts become association lists or functions
with an explicit default, and the imperative accumulation loops become
folds.  Distances enter the model as given rational numbers (the claims
under study are about the clustering / classification / accumulation logic
applied to a distance matrix, not about floating-point square roots).
-/

namespace ClusteringProt

/-! ## Contact-matrix normalization (calculate_statistics, lines 2205-2221)

A residue-contact matrix is modelled as its flattened list of entries.
`normalizeMat` embeds
`if np.sum(M) > 0: M = M / float(np.sum(M)) * 100`
applied to one matrix.  `calculate_statistics` applies this to the overall
per-species-pair matrix and to every per-size and per-group matrix. -/

def normalizeMat (m : List ℚ) : List ℚ :=
  if 0 < m.sum then m.map (fun x => x / m.sum * 100) else m

/-- All cumulative contact matrices of one species pair: the overall one plus
the lazily-allocated per-cluster-size and per-group dictionaries (modelled by
the lists of their values, which is all normalization looks at). -/
structure ContactMats where
  overall : List (List ℚ)
  bySize : List (List ℚ)
  byGroup : List (List ℚ)

/-- Embedding of the normalization section of `calculate_statistics`: each
matrix -- overall, by size and by group -- is normalized independently. -/
def finalizeMats (c : ContactMats) : ContactMats :=
  ⟨c.overall.map normalizeMat, c.bySize.map normalizeMat, c.byGroup.map normalizeMat⟩

lemma sum_map_div_mul (m : List ℚ) (s c : ℚ) :
    (m.map (fun x => x / s * c)).sum = m.sum / s * c := by
  induction m with
  | nil => simp
  | cons a t ih => simp [ih, add_div, add_mul]

lemma normalizeMat_sum_eq_100 (m : List ℚ) (h : 0 < m.sum) :
    (normalizeMat m).sum = 100 := by
  rw [normalizeMat, if_pos h, sum_map_div_mul, div_self (ne_of_gt h), one_mul]

lemma sum_nonneg_entries (m : List ℚ) (h : ∀ x ∈ m, 0 ≤ x) : 0 ≤ m.sum := by
  induction m with
  | nil => simp
  | cons a t ih =>
      simp only [List.sum_cons]
      have ha := h a (by simp)
      have ht := ih (fun x hx => h x (by simp [hx]))
      linarith

lemma sum_zero_all_zero (m : List ℚ) (h : ∀ x ∈ m, 0 ≤ x) (hs : m.sum = 0) :
    ∀ x ∈ m, x = 0 := by
  induction m with
  | nil => simp
  | cons a t ih =>
      simp only [List.sum_cons] at hs
      have ha := h a (by simp)
      have ht : 0 ≤ t.sum := sum_nonneg_entries t (fun x hx => h x (by simp [hx]))
      have ha0 : a = 0 := by linarith
      have hts : t.sum = 0 := by linarith
      intro x hx
      rcases List.mem_cons.mp hx with rfl | hx
      · exact ha0
      · exact ih (fun y hy => h y (by simp [hy])) hts x hx

/-! ## Size-group mapping (initialise_groups, lines 1379-1390)

`groups_boundaries` is the list of `[min, max]` pairs read from the group
definition file, in file order, with the literal `max` already replaced by
`100000` (line 1350).  `groups_sizes_dict` is the Python dict built at lines
1380-1390: first every size inside a declared range is assigned its group
index (later groups overwrite earlier ones, which is moot once the
non-overlap validation passed); then the two gap-filling loops assign the
catch-all index `groups_number` to every size in `range(1, max(keys))`
missing from the dict and, when `max(keys) != 100000`, to every size in
`range(max(keys)+1, 100001)`.  The function below is the pointwise net
effect of those loops: assignments hit pairwise distinct keys, so order is
irrelevant. -/

def buildBaseDict : ℕ → List (ℕ × ℕ) → ℕ → Option ℕ
  | _, [], _ => none
  | g, b :: rest, x =>
    match buildBaseDict (g + 1) rest x with
    | some r => some r
    | none => if b.1 ≤ x ∧ x ≤ b.2 then some g else none

/-- Largest key of the dict after the range-assignment loop: the largest
declared `max` bound (every bound is a key once each range is nonempty). -/
def maxHi (bs : List (ℕ × ℕ)) : ℕ := bs.foldl (fun m b => max m b.2) 0

/-- The final size-to-group dict.  A size missing from every declared range
is mapped to the catch-all group `gnum` exactly when one of the two
gap-filling loops reaches it: `1 <= x < max(keys)` for the first loop,
`max(keys) < x <= 100000` for the second; together (with `max(keys)` itself
always a key) that is `1 <= x` and (`x < max(keys)` or `x <= 100000`).
Any other size is absent (`Python: KeyError on lookup`). -/
def groups_sizes_dict (bs : List (ℕ × ℕ)) (gnum : ℕ) (x : ℕ) : Option ℕ :=
  match buildBaseDict 0 bs x with
  | some g => some g
  | none => if 1 ≤ x ∧ (x < maxHi bs ∨ x ≤ 100000) then some gnum else none

lemma buildBaseDict_eq_none_iff (g : ℕ) (bs : List (ℕ × ℕ)) (x : ℕ) :
    buildBaseDict g bs x = none ↔ ∀ b ∈ bs, ¬(b.1 ≤ x ∧ x ≤ b.2) := by
  induction bs generalizing g with
  | nil => simp [buildBaseDict]
  | cons b rest ih =>
      simp only [buildBaseDict]
      rcases h : buildBaseDict (g + 1) rest x with _ | r
      · have hrest := (ih (g + 1)).mp h
        constructor
        · intro hnone c hc
          rcases List.mem_cons.mp hc with rfl | hc
          · intro hin
            rw [if_pos hin] at hnone
            exact Option.some_ne_none g hnone
          · exact hrest c hc
        · intro hall
          rw [if_neg (hall b (by simp))]
      · constructor
        · intro hnone; exact absurd hnone (Option.some_ne_none r)
        · intro hall
          have : buildBaseDict (g + 1) rest x = none :=
            (ih (g + 1)).mpr (fun c hc => hall c (by simp [hc]))
          rw [this] at h
          exact absurd h.symm (Option.some_ne_none r)

lemma chain_lt_all (v : ℕ) (rest : List (ℕ × ℕ))
    (hlohi : ∀ b ∈ rest, b.1 ≤ b.2)
    (hch : rest.Chain' (fun b c => b.2 < c.1))
    (hv : ∀ h : rest ≠ [], v < (rest.head h).1) :
    ∀ c ∈ rest, v < c.1 := by
  induction rest generalizing v with
  | nil => simp
  | cons b rest ih =>
      intro c hc
      have hvb : v < b.1 := hv (by simp)
      rcases List.mem_cons.mp hc with rfl | hc
      · exact hvb
      · have hch' := List.chain'_cons'.mp hch
        have hb2 : b.2 < c.1 := by
          refine ih b.2 (fun d hd => hlohi d (by simp [hd])) hch'.2 ?_ c hc
          intro hne
          exact hch'.1 (rest.head hne) (by simp [List.head?_eq_head hne])
        have hbb := hlohi b (by simp)
        omega

lemma pairwise_of_chain (bs : List (ℕ × ℕ))
    (hlohi : ∀ b ∈ bs, b.1 ≤ b.2)
    (hch : bs.Chain' (fun b c => b.2 < c.1)) :
    bs.Pairwise (fun b c => b.2 < c.1) := by
  induction bs with
  | nil => simp
  | cons b rest ih =>
      have hch' := List.chain'_cons'.mp hch
      refine List.pairwise_cons.mpr ⟨?_, ih (fun d hd => hlohi d (by simp [hd])) hch'.2⟩
      intro c hc
      refine chain_lt_all b.2 rest (fun d hd => hlohi d (by simp [hd])) hch'.2 ?_ c hc
      intro hne
      exact hch'.1 (rest.head hne) (by simp [List.head?_eq_head hne])

lemma buildBaseDict_eq_of_mem (g : ℕ) (bs : List (ℕ × ℕ)) (x i : ℕ)
    (hi : i < bs.length)
    (hpw : bs.Pairwise (fun b c => b.2 < c.1))
    (hlohi : ∀ b ∈ bs, b.1 ≤ b.2)
    (hlo : (bs.get ⟨i, hi⟩).1 ≤ x) (hhi : x ≤ (bs.get ⟨i, hi⟩).2) :
    buildBaseDict g bs x = some (g + i) := by
  induction bs generalizing g i with
  | nil => exact absurd hi (Nat.not_lt_zero i)
  | cons b rest ih =>
      have hpw' := List.pairwise_cons.mp hpw
      cases i with
      | zero =>
          simp only [List.get] at hlo hhi
          have hnone : buildBaseDict (g + 1) rest x = none := by
            refine (buildBaseDict_eq_none_iff _ _ _).mpr ?_
            intro c hc hin
            have hbc := hpw'.1 c hc
            omega
          simp only [buildBaseDict, hnone, if_pos (And.intro hlo hhi), Nat.add_zero]
      | succ i' =>
          have hi' : i' < rest.length := by
            simpa [List.length_cons, Nat.succ_lt_succ_iff] using hi
          have := ih (g + 1) i' hi' hpw'.2
            (fun d hd => hlohi d (by simp [hd]))
            (by simpa using hlo) (by simpa using hhi)
          simp only [buildBaseDict, this]
          congr 1
          omega

/-- Example boundaries from the spec scenario: `1,1` / `2,5` / `6,max`
(the literal `max` stored as 100000 by line 1350). -/
def exBoundaries : List (ℕ × ℕ) := [(1, 1), (2, 5), (6, 100000)]

/-- C8 counterexample: with the `1,1 / 2,5 / 6,max` group file, the cluster
size 100001 — a positive size, inside the nominally open-ended third range —
is mapped to no group at all: the `max` bound is capped at 100000, so the
claim that every positive size maps to exactly one group index (and that
`max` is open-ended) fails at size 100001. -/
theorem C8_counterexample :
    groups_sizes_dict exBoundaries 3 100001 = none := by decide

/-- C8 (amended): for a validated group file whose bounds are capped at
100000, every size inside a declared inclusive range maps to that group's
index, and every positive size at most 100000 outside all declared ranges
maps to the catch-all index `bs.length` (`groups_number`); in particular
every size in `1..100000` maps to exactly one group index.  Sizes above
100000 are not mapped (the `max` bound is the cap 100000, not open-ended). -/
theorem C8_size_group_mapping (bs : List (ℕ × ℕ))
    (hlohi : ∀ b ∈ bs, b.1 ≤ b.2)
    (hch : bs.Chain' (fun b c => b.2 < c.1))
    (hcap : ∀ b ∈ bs, b.2 ≤ 100000) :
    (∀ i, ∀ hi : i < bs.length, ∀ x, (bs.get ⟨i, hi⟩).1 ≤ x → x ≤ (bs.get ⟨i, hi⟩).2 →
        groups_sizes_dict bs bs.length x = some i) ∧
    (∀ x, 1 ≤ x → x ≤ 100000 → (∀ b ∈ bs, ¬(b.1 ≤ x ∧ x ≤ b.2)) →
        groups_sizes_dict bs bs.length x = some bs.length) ∧
    (∀ x, 1 ≤ x → x ≤ 100000 → ∃ g, groups_sizes_dict bs bs.length x = some g) := by
  have hpw := pairwise_of_chain bs hlohi hch
  refine ⟨?_, ?_, ?_⟩
  · intro i hi x hlo hhi
    have := buildBaseDict_eq_of_mem 0 bs x i hi hpw hlohi hlo hhi
    simp only [groups_sizes_dict, this, Nat.zero_add]
  · intro x h1 h2 hout
    have hnone : buildBaseDict 0 bs x = none :=
      (buildBaseDict_eq_none_iff _ _ _).mpr hout
    simp only [groups_sizes_dict, hnone]
    rw [if_pos ⟨h1, Or.inr h2⟩]
  · intro x h1 h2
    rcases h : buildBaseDict 0 bs x with _ | g
    · exact ⟨bs.length, by simp only [groups_sizes_dict, h]; rw [if_pos ⟨h1, Or.inr h2⟩]⟩
    · exact ⟨g, by simp only [groups_sizes_dict, h]⟩

/-- C8 witness: on the `1,1 / 2,5 / 6,max` file, size 3 maps to group index
1 and size 7 maps to group index 2, via the amended theorem. -/
theorem C8_witness :
    groups_sizes_dict exBoundaries 3 3 = some 1 ∧
    groups_sizes_dict exBoundaries 3 7 = some 2 := by
  have h := C8_size_group_mapping exBoundaries (by decide)
    (by norm_num [exBoundaries, List.chain'_cons]) (by decide)
  exact ⟨h.1 1 (by decide) 3 (by decide) (by decide),
         h.1 2 (by decide) 7 (by decide) (by decide)⟩

/-! ## C4: contact-matrix normalization theorem -/

/-- C4: after finalization every cumulative residue-contact matrix (overall,
per-size and per-group) with nonzero total is scaled to sum to 100 (divided
by its own total and multiplied by 100), and every matrix with zero total is
left unchanged as all zeros; the division branch is only taken on a nonzero
total, so normalization never divides by zero.  Entries are cumulative
counts, hence nonnegative. -/
theorem C4_normalization (c : ContactMats)
    (hnn : ∀ m, (m ∈ c.overall ∨ m ∈ c.bySize ∨ m ∈ c.byGroup) → ∀ x ∈ m, 0 ≤ x) :
    (finalizeMats c).overall = c.overall.map normalizeMat ∧
    (finalizeMats c).bySize = c.bySize.map normalizeMat ∧
    (finalizeMats c).byGroup = c.byGroup.map normalizeMat ∧
    (∀ m, (m ∈ c.overall ∨ m ∈ c.bySize ∨ m ∈ c.byGroup) →
      (m.sum ≠ 0 → (normalizeMat m).sum = 100) ∧
      (m.sum = 0 → normalizeMat m = m ∧ ∀ x ∈ m, x = 0)) := by
  refine ⟨rfl, rfl, rfl, ?_⟩
  intro m hm
  have hnng := hnn m hm
  constructor
  · intro hs
    have hpos : 0 < m.sum := lt_of_le_of_ne (sum_nonneg_entries m hnng) (Ne.symm hs)
    exact normalizeMat_sum_eq_100 m hpos
  · intro hs
    have hnlt : ¬ 0 < m.sum := by rw [hs]; exact lt_irrefl 0
    exact ⟨by rw [normalizeMat, if_neg hnlt], sum_zero_all_zero m hnng hs⟩

/-- C4 witness: applying the theorem to a concrete pair of matrices, one
with nonzero total (normalizes to sum 100) and one all-zero (unchanged). -/
theorem C4_witness :
    (normalizeMat [(1 : ℚ), 3]).sum = 100 ∧
    normalizeMat [(0 : ℚ), 0] = [0, 0] := by
  have h := C4_normalization ⟨[[(1 : ℚ), 3]], [[(0 : ℚ), 0]], []⟩ (by
    intro m hm x hx
    rcases hm with hm | hm | hm <;> simp_all
    rcases hx with rfl | hx <;> norm_num
    simp_all)
  refine ⟨(h.2.2.2 [(1 : ℚ), 3] (Or.inl (by simp))).1 (by norm_num), ?_⟩
  exact ((h.2.2.2 [(0 : ℚ), 0] (Or.inr (Or.inl (by simp)))).2 (by norm_num)).1

/-! ## Leaflet classification (process_clusters_TM, lines 1810-1838)

For one cluster, the code gathers all member atoms, computes per atom the
minimum distance to the lower- and to the upper-leaflet headgroup
coordinates (`np.min(distance_array(...), axis=1)`), sets
`dist = dist_min_upper - dist_min_lower`, and branches on
`np.size(dist[dist>0])`: equal to `np.size(dist)` means interfacial-lower
(sentinel -1 for both arrays), equal to 0 means interfacial-upper (99999 and
`groups_number+1`), otherwise transmembrane (size written, contact
accumulation runs).  An atom is modelled by its two lists of distances to
the upper resp. lower headgroups (the claims are about the sign pattern of
the differences, not about the Euclidean metric itself). -/

/-- Minimum of a nonempty list, `np.min`-style (0 on the empty list, which
`np.min` would reject; theorems that depend on mins only use it on nonempty
lists). -/
def listMin : List ℚ → ℚ
  | [] => 0
  | x :: xs => xs.foldl min x

/-- Per-atom `delta`: minimum distance to the upper headgroups minus minimum
distance to the lower headgroups (line 1812). -/
def deltaOf (a : List ℚ × List ℚ) : ℚ := listMin a.1 - listMin a.2

inductive LeafClass
  | lower
  | upper
  | tm
deriving DecidableEq

/-- Branch structure of lines 1816-1830: count of strictly positive deltas
equal to the number of atoms means lower, zero means upper, otherwise TM. -/
def classifyTM (deltas : List ℚ) : LeafClass :=
  if deltas.countP (fun d => decide (0 < d)) = deltas.length then .lower
  else if deltas.countP (fun d => decide (0 < d)) = 0 then .upper
  else .tm

/-- Writing one value to the per-frame entries of every member of a cluster
(`proteins_size[f_index, cluster] = v`). -/
def writeAll {n : ℕ} (cluster : List (Fin n)) (v : ℤ) (arr : Fin n → ℤ) : Fin n → ℤ :=
  fun p => if p ∈ cluster then v else arr p

/-- One cluster of `process_clusters_TM`, restricted to the classification
and to the size/group writes; returns the updated size array, the updated
group array and whether the TM branch (full contact accumulation) ran. -/
def processClusterTM {n : ℕ} (cluster : List (Fin n))
    (atoms : List (List ℚ × List ℚ)) (gnum : ℕ) (gdict : ℕ → ℤ)
    (useGroups : Bool) (sizes groups : Fin n → ℤ) :
    (Fin n → ℤ) × (Fin n → ℤ) × Bool :=
  match classifyTM (atoms.map deltaOf) with
  | .lower =>
      (writeAll cluster (-1) sizes,
       if useGroups then writeAll cluster (-1) groups else groups, false)
  | .upper =>
      (writeAll cluster 99999 sizes,
       if useGroups then writeAll cluster ((gnum : ℤ) + 1) groups else groups, false)
  | .tm =>
      (writeAll cluster (cluster.length : ℤ) sizes,
       if useGroups then writeAll cluster (gdict cluster.length) groups else groups, true)

lemma countP_pos_eq_length_iff (deltas : List ℚ) :
    deltas.countP (fun d => decide (0 < d)) = deltas.length ↔ ∀ d ∈ deltas, 0 < d := by
  rw [List.countP_eq_length]
  constructor
  · intro h d hd
    simpa using h d hd
  · intro h d hd
    simpa using h d hd

lemma countP_pos_eq_zero_iff (deltas : List ℚ) :
    deltas.countP (fun d => decide (0 < d)) = 0 ↔ ∀ d ∈ deltas, ¬ 0 < d := by
  rw [List.countP_eq_zero]
  constructor
  · intro h d hd
    simpa using h d hd
  · intro h d hd
    simpa using h d hd

/-- C2: with leaflet information, a cluster all of whose atoms have
`delta > 0` is classified interfacial-lower and every member's size entry is
set to -1 (group entry -1 when groups are configured); a nonempty cluster
none of whose atoms has `delta > 0` is classified interfacial-upper with
size sentinel 99999 (group entry `groups_number + 1`); with both signs
present it is transmembrane, the size entry equals the cluster's protein
count, and contact accumulation runs. -/
theorem C2_leaflet_classification {n : ℕ} (cluster : List (Fin n))
    (atoms : List (List ℚ × List ℚ)) (gnum : ℕ) (gdict : ℕ → ℤ)
    (useGroups : Bool) (sizes groups : Fin n → ℤ) :
    ((∀ a ∈ atoms, 0 < deltaOf a) →
      classifyTM (atoms.map deltaOf) = .lower ∧
      ∀ p ∈ cluster,
        (processClusterTM cluster atoms gnum gdict useGroups sizes groups).1 p = -1 ∧
        (useGroups = true →
          (processClusterTM cluster atoms gnum gdict useGroups sizes groups).2.1 p = -1) ∧
        (processClusterTM cluster atoms gnum gdict useGroups sizes groups).2.2 = false) ∧
    ((∀ a ∈ atoms, ¬ 0 < deltaOf a) → atoms ≠ [] →
      classifyTM (atoms.map deltaOf) = .upper ∧
      ∀ p ∈ cluster,
        (processClusterTM cluster atoms gnum gdict useGroups sizes groups).1 p = 99999 ∧
        (useGroups = true →
          (processClusterTM cluster atoms gnum gdict useGroups sizes groups).2.1 p
            = (gnum : ℤ) + 1) ∧
        (processClusterTM cluster atoms gnum gdict useGroups sizes groups).2.2 = false) ∧
    ((∃ a ∈ atoms, 0 < deltaOf a) → (∃ a ∈ atoms, ¬ 0 < deltaOf a) →
      classifyTM (atoms.map deltaOf) = .tm ∧
      (∀ p ∈ cluster,
        (processClusterTM cluster atoms gnum gdict useGroups sizes groups).1 p
          = (cluster.length : ℤ) ∧
        (useGroups = true →
          (processClusterTM cluster atoms gnum gdict useGroups sizes groups).2.1 p
            = gdict cluster.length)) ∧
      (processClusterTM cluster atoms gnum gdict useGroups sizes groups).2.2 = true) := by
  refine ⟨?_, ?_, ?_⟩
  · intro hall
    have hcls : classifyTM (atoms.map deltaOf) = .lower := by
      rw [classifyTM, if_pos]
      rw [countP_pos_eq_length_iff]
      intro d hd
      rcases List.mem_map.mp hd with ⟨a, ha, rfl⟩
      exact hall a ha
    refine ⟨hcls, ?_⟩
    intro p hp
    simp only [processClusterTM, hcls]
    refine ⟨by simp [writeAll, hp], ?_, by trivial⟩
    intro hug
    simp [hug, writeAll, hp]
  · intro hnone hne
    have hcls : classifyTM (atoms.map deltaOf) = .upper := by
      have hz : (atoms.map deltaOf).countP (fun d => decide (0 < d)) = 0 := by
        rw [countP_pos_eq_zero_iff]
        intro d hd
        rcases List.mem_map.mp hd with ⟨a, ha, rfl⟩
        exact hnone a ha
      have hlen : (atoms.map deltaOf).length ≠ 0 := by
        simpa [List.length_map] using fun h => hne (List.length_eq_zero.mp h)
      rw [classifyTM, if_neg (by rw [hz]; exact fun h => hlen h.symm), if_pos hz]
    refine ⟨hcls, ?_⟩
    intro p hp
    simp only [processClusterTM, hcls]
    refine ⟨by simp [writeAll, hp], ?_, by trivial⟩
    intro hug
    simp [hug, writeAll, hp]
  · intro ⟨a₁, ha₁, hpos⟩ ⟨a₂, ha₂, hneg⟩
    have hcls : classifyTM (atoms.map deltaOf) = .tm := by
      rw [classifyTM, if_neg, if_neg]
      · rw [countP_pos_eq_zero_iff]
        intro h
        exact h (deltaOf a₁) (List.mem_map.mpr ⟨a₁, ha₁, rfl⟩) hpos
      · rw [countP_pos_eq_length_iff]
        intro h
        exact hneg (h (deltaOf a₂) (List.mem_map.mpr ⟨a₂, ha₂, rfl⟩))
    refine ⟨hcls, ?_, ?_⟩
    · intro p hp
      simp only [processClusterTM, hcls]
      refine ⟨by simp [writeAll, hp], ?_⟩
      intro hug
      simp [hug, writeAll, hp]
    · simp only [processClusterTM, hcls]

/-- C2 witness: a two-atom, one-protein cluster with mixed deltas (one atom
closer to the lower leaflet, the other closer to the upper) is classified
transmembrane, and the size entry of the member is the cluster size 1. -/
theorem C2_witness :
    classifyTM ([([(2 : ℚ)], [(1 : ℚ)]), ([(1 : ℚ)], [(2 : ℚ)])].map deltaOf)
      = LeafClass.tm ∧
    (processClusterTM [(0 : Fin 1)] [([(2 : ℚ)], [(1 : ℚ)]), ([(1 : ℚ)], [(2 : ℚ)])]
        0 (fun _ => 0) false (fun _ => 0) (fun _ => 0)).1 0 = 1 := by
  have h := (C2_leaflet_classification [(0 : Fin 1)]
      [([(2 : ℚ)], [(1 : ℚ)]), ([(1 : ℚ)], [(2 : ℚ)])] 0 (fun _ => 0) false
      (fun _ => 0) (fun _ => 0)).2.2
      ⟨([(2 : ℚ)], [(1 : ℚ)]), by norm_num [deltaOf, listMin]⟩
      ⟨([(1 : ℚ)], [(2 : ℚ)]), by norm_num [deltaOf, listMin]⟩
  exact ⟨h.1, by simpa using (h.2.1 0 (by simp)).1⟩

/-! ## Density-based detector output (detect_clusters_density, lines 1626-1640)

DBSCAN itself is the external library call; its output is the per-point
label list (`dbscan_output.labels_`, noise = -1).  The function then builds
`groups`: for each label in `np.unique(labels)` (sorted distinct values),
the positions carrying that label (`np.argwhere`, in increasing order); for
the noise label the bare positions are appended one by one
(`groups += map(...)`), for any other label the whole position list is
appended as one cluster (`groups.append(...)`).  An output element is hence
either a bare index (`Sum.inl`) or a list of indices (`Sum.inr`); a bare
index is a singleton cluster downstream (`np.size(int) == 1`). -/

/-- Positions of the points carrying label `l`, in increasing order
(`np.argwhere(labels == l)`). -/
def positionsOf (labels : List ℤ) (l : ℤ) : List ℕ :=
  (List.range labels.length).filter (fun i => decide (labels.get? i = some l))

def insertSorted (x : ℤ) : List ℤ → List ℤ
  | [] => [x]
  | y :: ys => if x ≤ y then x :: y :: ys else y :: insertSorted x ys

/-- Sorted distinct label values (`np.unique`). -/
def uniqueLabels (labels : List ℤ) : List ℤ :=
  labels.dedup.foldr insertSorted []

/-- Embedding of `detect_clusters_density` given the DBSCAN label list. -/
def detect_clusters_density (labels : List ℤ) : List (ℕ ⊕ List ℕ) :=
  (uniqueLabels labels).flatMap (fun l =>
    if l = -1 then (positionsOf labels l).map Sum.inl
    else [Sum.inr (positionsOf labels l)])

/-- How many times the output accounts for protein index `i` inside one
output element. -/
def entryCount (i : ℕ) : ℕ ⊕ List ℕ → ℕ
  | Sum.inl j => if j = i then 1 else 0
  | Sum.inr L => L.count i

/-- How many times the whole output accounts for protein index `i`. -/
def coverCount (out : List (ℕ ⊕ List ℕ)) (i : ℕ) : ℕ :=
  (out.map (entryCount i)).sum

lemma mem_positionsOf (labels : List ℤ) (l : ℤ) (j : ℕ) :
    j ∈ positionsOf labels l ↔ labels.get? j = some l := by
  simp only [positionsOf, List.mem_filter, List.mem_range, decide_eq_true_eq]
  constructor
  · exact fun h => h.2
  · intro h
    rcases List.get?_eq_some.mp h with ⟨hlt, _⟩
    exact ⟨hlt, h⟩

lemma nodup_positionsOf (labels : List ℤ) (l : ℤ) :
    (positionsOf labels l).Nodup :=
  (List.nodup_range _).filter _

lemma count_positionsOf (labels : List ℤ) (l : ℤ) (i : ℕ) :
    (positionsOf labels l).count i = if labels.get? i = some l then 1 else 0 := by
  by_cases h : labels.get? i = some l
  · rw [if_pos h]
    exact List.count_eq_one_of_mem (nodup_positionsOf labels l)
      ((mem_positionsOf labels l i).mpr h)
  · rw [if_neg h, List.count_eq_zero]
    exact fun hmem => h ((mem_positionsOf labels l i).mp hmem)

lemma mem_insertSorted (x a : ℤ) (l : List ℤ) :
    a ∈ insertSorted x l ↔ a = x ∨ a ∈ l := by
  induction l with
  | nil => simp [insertSorted]
  | cons y ys ih =>
      by_cases h : x ≤ y
      · simp [insertSorted, h]
      · simp only [insertSorted, if_neg h, List.mem_cons, ih]
        tauto

lemma nodup_insertSorted (x : ℤ) (l : List ℤ) (hx : x ∉ l) (hl : l.Nodup) :
    (insertSorted x l).Nodup := by
  induction l with
  | nil => simp [insertSorted]
  | cons y ys ih =>
      rcases List.nodup_cons.mp hl with ⟨hy, hys⟩
      by_cases h : x ≤ y
      · rw [insertSorted, if_pos h]
        exact List.nodup_cons.mpr ⟨by simp_all, hl⟩
      · rw [insertSorted, if_neg h]
        refine List.nodup_cons.mpr ⟨?_, ih (fun hm => hx (by simp [hm])) hys⟩
        rw [mem_insertSorted]
        push_neg
        exact ⟨fun he => hx (by simp [he]), hy⟩

lemma mem_uniqueLabels (labels : List ℤ) (l : ℤ) :
    l ∈ uniqueLabels labels ↔ l ∈ labels := by
  have key : ∀ ds : List ℤ, l ∈ ds.foldr insertSorted [] ↔ l ∈ ds := by
    intro ds
    induction ds with
    | nil => simp
    | cons d ds ih => simp [mem_insertSorted, ih]
  rw [uniqueLabels, key, List.mem_dedup]

lemma nodup_uniqueLabels (labels : List ℤ) : (uniqueLabels labels).Nodup := by
  have key : ∀ ds : List ℤ, ds.Nodup → (ds.foldr insertSorted []).Nodup := by
    intro ds
    induction ds with
    | nil => simp
    | cons d ds ih =>
        intro h
        rcases List.nodup_cons.mp h with ⟨hd, hds⟩
        refine nodup_insertSorted d _ ?_ (ih hds)
        intro hmem
        have : ∀ es : List ℤ, d ∈ es.foldr insertSorted [] → d ∈ es := by
          intro es
          induction es with
          | nil => simp
          | cons e es ihe =>
              intro hm
              rcases (mem_insertSorted e d _).mp hm with rfl | hm
              · simp
              · simp [ihe hm]
        exact hd (this ds hmem)
  exact key _ (List.nodup_dedup labels)

lemma coverCount_append (o₁ o₂ : List (ℕ ⊕ List ℕ)) (i : ℕ) :
    coverCount (o₁ ++ o₂) i = coverCount o₁ i + coverCount o₂ i := by
  simp [coverCount]

lemma sum_inl_entry (js : List ℕ) (i : ℕ) :
    ((js.map Sum.inl).map (entryCount i)).sum = js.count i := by
  induction js with
  | nil => simp
  | cons j js ih =>
      simp only [List.map_cons, List.sum_cons, entryCount, List.count_cons, ih]
      by_cases hj : j = i
      · subst hj; simp; omega
      · have hbeq : ¬ (i == j) = true := by simpa using fun he => hj he.symm
        simp [hj, hbeq]

lemma coverCount_block (labels : List ℤ) (l : ℤ) (i : ℕ) :
    coverCount (if l = -1 then (positionsOf labels l).map Sum.inl
      else [Sum.inr (positionsOf labels l)]) i
      = (positionsOf labels l).count i := by
  by_cases h : l = -1
  · rw [if_pos h, coverCount, sum_inl_entry]
  · rw [if_neg h]
    simp [coverCount, entryCount]

/-- C3: the density-based detector accounts for every protein index exactly
once: each non-noise DBSCAN label yields exactly one cluster element holding
exactly the points with that label, every noise point appears as its own
bare singleton element, and the total multiplicity of every point index
across the whole output is exactly one. -/
theorem C3_density_accounting (labels : List ℤ) :
    (∀ l j, j ∈ positionsOf labels l ↔ labels.get? j = some l) ∧
    (∀ l, l ≠ -1 → l ∈ labels →
      Sum.inr (positionsOf labels l) ∈ detect_clusters_density labels) ∧
    (∀ L, Sum.inr L ∈ detect_clusters_density labels →
      ∃ l, l ∈ labels ∧ l ≠ -1 ∧ L = positionsOf labels l) ∧
    (∀ i, labels.get? i = some (-1) →
      Sum.inl i ∈ detect_clusters_density labels) ∧
    (∀ i, i < labels.length → coverCount (detect_clusters_density labels) i = 1) := by
  refine ⟨mem_positionsOf labels, ?_, ?_, ?_, ?_⟩
  · intro l hl hmem
    rw [detect_clusters_density, List.mem_flatMap]
    refine ⟨l, (mem_uniqueLabels labels l).mpr hmem, ?_⟩
    rw [if_neg hl]
    simp
  · intro L hL
    rw [detect_clusters_density, List.mem_flatMap] at hL
    rcases hL with ⟨l, hlmem, hblock⟩
    by_cases h : l = -1
    · rw [if_pos h] at hblock
      rcases List.mem_map.mp hblock with ⟨j, _, hj⟩
      exact absurd hj (by simp)
    · rw [if_neg h] at hblock
      simp only [List.mem_singleton, Sum.inr.injEq] at hblock
      exact ⟨l, (mem_uniqueLabels labels l).mp hlmem, h, hblock⟩
  · intro i hi
    rw [detect_clusters_density, List.mem_flatMap]
    refine ⟨-1, (mem_uniqueLabels labels (-1)).mpr ?_, ?_⟩
    · exact List.get?_mem hi
    · rw [if_pos rfl]
      exact List.mem_map.mpr ⟨i, (mem_positionsOf labels (-1) i).mpr hi, rfl⟩
  · intro i hilt
    obtain ⟨li, hli⟩ : ∃ li, labels.get? i = some li := by
      rcases List.get?_eq_get hilt with h
      exact ⟨_, h⟩
    have hsum : ∀ us : List ℤ, us.Nodup →
        coverCount (us.flatMap (fun l =>
          if l = -1 then (positionsOf labels l).map Sum.inl
          else [Sum.inr (positionsOf labels l)])) i
          = if li ∈ us then 1 else 0 := by
      intro us
      induction us with
      | nil => simp [coverCount]
      | cons u us ih =>
          intro hnd
          rcases List.nodup_cons.mp hnd with ⟨hu, hus⟩
          rw [List.flatMap_cons, coverCount_append, coverCount_block, ih hus,
            count_positionsOf, hli]
          by_cases he : u = li
          · subst he
            simp [hu]
          · have : ¬ (some li = some u) := by
              simpa using fun h => he h.symm
            rw [if_neg this]
            by_cases hmem : li ∈ us <;> simp [hmem, he, Ne.symm he]
    rw [detect_clusters_density, hsum (uniqueLabels labels) (nodup_uniqueLabels labels),
      if_pos ((mem_uniqueLabels labels li).mpr (List.get?_mem hli))]

/-- C3 witness: labels `[0, -1, 0]` — one non-noise cluster `{0, 2}` and the
noise point 1 as its own singleton; every index is covered exactly once. -/
theorem C3_witness :
    Sum.inr [0, 2] ∈ detect_clusters_density [0, -1, 0] ∧
    Sum.inl 1 ∈ detect_clusters_density [0, -1, 0] ∧
    coverCount (detect_clusters_density [0, -1, 0]) 1 = 1 := by
  have h := C3_density_accounting [0, -1, 0]
  refine ⟨?_, h.2.2.2.1 1 (by decide), h.2.2.2.2 1 (by decide)⟩
  have := h.2.1 0 (by decide) (by decide)
  simpa [positionsOf] using this

/-! ## Cluster-composition table (process_clusters, lines 1662-1683, 1736-1743)

`clusters_comp` is a dict keyed by cluster size; each value is a dict from a
composition tuple (count of member proteins per species, accumulated by
`tmp_comp[p_s_index] += 1` over the members) to the number of times that
composition was observed.  Both dict levels lazily create a missing key
(`{}` resp. `0`) and then increment.  The dicts are modelled by association
lists in insertion order. -/

/-- Composition tuple of a cluster: member count per species index
(`tmp_comp`). -/
def compOf {n : ℕ} (sp : Fin n → ℕ) (S : ℕ) (cluster : List (Fin n)) : List ℕ :=
  (List.range S).map (fun s => (cluster.filter (fun p => decide (sp p = s))).length)

abbrev CompTable := List (ℕ × List (List ℕ × ℕ))

/-- Inner dict update: create the composition key with count 0 when absent,
then increment its count. -/
def bumpInner (l : List (List ℕ × ℕ)) (comp : List ℕ) : List (List ℕ × ℕ) :=
  (if l.any (fun e => decide (e.1 = comp)) then l else l ++ [(comp, 0)]).map
    (fun e => if e.1 = comp then (e.1, e.2 + 1) else e)

/-- Outer dict update: create the size key with an empty inner dict when
absent, then update the inner dict for the observed composition. -/
def bumpComp (t : CompTable) (csize : ℕ) (comp : List ℕ) : CompTable :=
  (if t.any (fun e => decide (e.1 = csize)) then t else t ++ [(csize, [])]).map
    (fun e => if e.1 = csize then (e.1, bumpInner e.2 comp) else e)

/-- One frame's composition accumulation: one `bumpComp` per cluster, keyed by
the cluster size `np.size(cluster)`. -/
def processFrameComps {n : ℕ} (sp : Fin n → ℕ) (S : ℕ)
    (clusters : List (List (Fin n))) (t : CompTable) : CompTable :=
  clusters.foldl (fun tab c => bumpComp tab c.length (compOf sp S c)) t

/-- Stored occurrence count for a (size, composition) key pair; 0 when the
key pair is absent. -/
def lookupCount (t : CompTable) (csize : ℕ) (comp : List ℕ) : ℕ :=
  match t.find? (fun e => decide (e.1 = csize)) with
  | none => 0
  | some e =>
    match e.2.find? (fun r => decide (r.1 = comp)) with
    | none => 0
    | some r => r.2

lemma sum_map_add (L : List ℕ) (f g : ℕ → ℕ) :
    (L.map (fun s => f s + g s)).sum = (L.map f).sum + (L.map g).sum := by
  induction L with
  | nil => simp
  | cons a t ih => simp [ih]; omega

lemma sum_indicator_count (L : List ℕ) (a : ℕ) :
    (L.map (fun s => if a = s then 1 else 0)).sum = L.count a := by
  induction L with
  | nil => simp
  | cons b t ih =>
      simp only [List.map_cons, List.sum_cons, List.count_cons, ih]
      by_cases h : a = b
      · subst h; simp; omega
      · have hbeq : (b == a) = false := by
          simpa using fun he => h he.symm
        simp only [if_neg h, hbeq]
        simp

lemma sum_compOf {n : ℕ} (sp : Fin n → ℕ) (S : ℕ) (cluster : List (Fin n))
    (hsp : ∀ p ∈ cluster, sp p < S) :
    (compOf sp S cluster).sum = cluster.length := by
  induction cluster with
  | nil => simp [compOf]
  | cons p rest ih =>
      have hrest := ih (fun q hq => hsp q (by simp [hq]))
      have hmap : ∀ s : ℕ,
          ((p :: rest).filter (fun q => decide (sp q = s))).length
            = (if sp p = s then 1 else 0)
              + (rest.filter (fun q => decide (sp q = s))).length := by
        intro s
        by_cases h : sp p = s <;> simp [List.filter_cons, h] <;> omega
      have : compOf sp S (p :: rest)
          = (List.range S).map (fun s => (if sp p = s then 1 else 0)
              + (rest.filter (fun q => decide (sp q = s))).length) := by
        simp only [compOf]
        exact List.map_congr_left (fun s _ => hmap s)
      rw [this, sum_map_add, sum_indicator_count]
      have hcnt : (List.range S).count (sp p) = 1 :=
        List.count_eq_one_of_mem (List.nodup_range S)
          (List.mem_range.mpr (hsp p (by simp)))
      rw [hcnt]
      have : ((List.range S).map
          (fun s => (rest.filter (fun q => decide (sp q = s))).length)).sum
            = rest.length := hrest
      rw [this]
      simp [Nat.add_comm]

/-- Composition-table invariant: every stored composition sums to its size
key and every stored count is positive. -/
def CompInv (t : CompTable) : Prop :=
  ∀ e ∈ t, ∀ r ∈ e.2, r.1.sum = e.1 ∧ 1 ≤ r.2

lemma compInv_bumpInner (l : List (List ℕ × ℕ)) (comp : List ℕ) (csize : ℕ)
    (hl : ∀ r ∈ l, r.1.sum = csize ∧ 1 ≤ r.2) (hc : comp.sum = csize) :
    ∀ r ∈ bumpInner l comp, r.1.sum = csize ∧ 1 ≤ r.2 := by
  intro r hr
  rcases List.mem_map.mp hr with ⟨e, he, hre⟩
  have hbase : e.1.sum = csize ∧ 0 ≤ e.2 := by
    by_cases hany : l.any (fun e => decide (e.1 = comp))
    · rw [if_pos hany] at he
      exact ⟨(hl e he).1, Nat.zero_le _⟩
    · rw [if_neg hany] at he
      rcases List.mem_append.mp he with he | he
      · exact ⟨(hl e he).1, Nat.zero_le _⟩
      · simp only [List.mem_singleton] at he
        subst he
        exact ⟨hc, le_refl 0⟩
  by_cases heq : e.1 = comp
  · rw [if_pos heq] at hre
    subst hre
    exact ⟨hbase.1, Nat.succ_le_succ (Nat.zero_le _)⟩
  · rw [if_neg heq] at hre
    subst hre
    by_cases hany : l.any (fun e => decide (e.1 = comp))
    · rw [if_pos hany] at he
      exact hl e he
    · rw [if_neg hany] at he
      rcases List.mem_append.mp he with he | he
      · exact hl e he
      · simp only [List.mem_singleton] at he
        subst he
        exact absurd rfl heq

lemma compInv_bumpComp (t : CompTable) (csize : ℕ) (comp : List ℕ)
    (ht : CompInv t) (hc : comp.sum = csize) :
    CompInv (bumpComp t csize comp) := by
  intro e he r hr
  rcases List.mem_map.mp he with ⟨e₀, he₀, hee⟩
  have he₀mem : e₀ ∈ t ∨ e₀ = (csize, ([] : List (List ℕ × ℕ))) := by
    by_cases hany : t.any (fun e => decide (e.1 = csize))
    · rw [if_pos hany] at he₀
      exact Or.inl he₀
    · rw [if_neg hany] at he₀
      rcases List.mem_append.mp he₀ with h | h
      · exact Or.inl h
      · simp only [List.mem_singleton] at h
        exact Or.inr h
  by_cases heq : e₀.1 = csize
  · rw [if_pos heq] at hee
    subst hee
    simp only at hr
    rcases he₀mem with hmem | hnew
    · exact (by
        have hinner : ∀ s ∈ e₀.2, s.1.sum = csize ∧ 1 ≤ s.2 := by
          intro s hs
          have := ht e₀ hmem s hs
          rw [heq] at this
          exact this
        have := compInv_bumpInner e₀.2 comp csize hinner hc r hr
        rw [heq]
        exact this)
    · subst hnew
      simp only at hr
      have := compInv_bumpInner [] comp csize (by simp) hc r hr
      exact this
  · rw [if_neg heq] at hee
    subst hee
    rcases he₀mem with hmem | hnew
    · exact ht e₀ hmem r hr
    · subst hnew
      exact absurd rfl heq

lemma find?_map_keyPres {α β : Type} [DecidableEq α] (t : List (α × β)) (k : α)
    (f : α × β → α × β) (hf : ∀ e, (f e).1 = e.1) :
    (t.map f).find? (fun e => decide (e.1 = k))
      = Option.map f (t.find? (fun e => decide (e.1 = k))) := by
  induction t with
  | nil => simp
  | cons e t ih =>
      simp only [List.map_cons, List.find?]
      by_cases h : e.1 = k
      · simp [hf e, h]
      · simp [hf e, h, ih]

lemma lookupInner_le_bumpInner (l : List (List ℕ × ℕ)) (comp k : List ℕ) :
    (match l.find? (fun r => decide (r.1 = k)) with
      | none => 0 | some r => r.2)
    ≤ (match (bumpInner l comp).find? (fun r => decide (r.1 = k)) with
      | none => 0 | some r => r.2) := by
  rw [bumpInner]
  set base := if l.any (fun e => decide (e.1 = comp)) then l else l ++ [(comp, 0)]
    with hbase
  have hfind : l.find? (fun r => decide (r.1 = k)) = none ∨
      base.find? (fun r => decide (r.1 = k)) = l.find? (fun r => decide (r.1 = k)) := by
    by_cases hany : l.any (fun e => decide (e.1 = comp))
    · right; rw [hbase, if_pos hany]
    · rcases h : l.find? (fun r => decide (r.1 = k)) with _ | r
      · left; exact h
      · right
        rw [hbase, if_neg hany, List.find?_append, h]
        rfl
  rw [find?_map_keyPres _ _ _ (by
    intro e
    by_cases he : e.1 = comp <;> simp [he])]
  rcases hfind with h | h
  · rw [h]
    simp
  · rw [h]
    rcases hl : l.find? (fun r => decide (r.1 = k)) with _ | r
    · rw [hl]; exact Nat.zero_le _
    · rw [hl, Option.map_some']
      by_cases hr : r.1 = comp
      · simp only [if_pos hr]
        exact Nat.le_succ r.2
      · simp [hr]

lemma lookupCount_le_bumpComp (t : CompTable) (cs k : ℕ)
    (comp kc : List ℕ) :
    lookupCount t k kc ≤ lookupCount (bumpComp t cs comp) k kc := by
  rw [lookupCount, lookupCount, bumpComp]
  set base := if t.any (fun e => decide (e.1 = cs)) then t else t ++ [(cs, [])]
    with hbase
  have hfind : t.find? (fun e => decide (e.1 = k)) = none ∨
      base.find? (fun e => decide (e.1 = k)) = t.find? (fun e => decide (e.1 = k)) := by
    by_cases hany : t.any (fun e => decide (e.1 = cs))
    · right; rw [hbase, if_pos hany]
    · rcases h : t.find? (fun e => decide (e.1 = k)) with _ | e
      · left; exact h
      · right
        rw [hbase, if_neg hany, List.find?_append, h]
        rfl
  rw [find?_map_keyPres _ _ _ (by
    intro e
    by_cases he : e.1 = cs <;> simp [he])]
  rcases hfind with h | h
  · rw [h]
    simp
  · rw [h]
    rcases hte : t.find? (fun e => decide (e.1 = k)) with _ | e
    · rw [hte]; exact Nat.zero_le _
    · rw [hte, Option.map_some']
      by_cases he : e.1 = cs
      · simp only [if_pos he]
        exact lookupInner_le_bumpInner e.2 comp kc
      · simp [if_neg he]

/-- C10: starting from a table satisfying the composition invariant (so in
particular from the initial empty table), processing any list of clusters
preserves it: every stored composition tuple sums exactly to its cluster-size
key (each member counted once for its species) and every stored occurrence
count is a positive integer; moreover no stored count ever decreases, either
across one cluster update or across a whole frame. -/
lemma compInv_processFrame {n : ℕ} (sp : Fin n → ℕ) (S : ℕ) :
    ∀ (clusters : List (List (Fin n))) (t : CompTable),
      (∀ c ∈ clusters, ∀ p ∈ c, sp p < S) → CompInv t →
      CompInv (processFrameComps sp S clusters t) := by
  intro clusters
  induction clusters with
  | nil => exact fun t _ ht => ht
  | cons c rest ih =>
      intro t hsp ht
      rw [processFrameComps, List.foldl_cons]
      exact ih (bumpComp t c.length (compOf sp S c))
        (fun d hd => hsp d (List.mem_cons_of_mem _ hd))
        (compInv_bumpComp t c.length (compOf sp S c) ht
          (sum_compOf sp S c (hsp c (by simp))))

lemma lookupCount_le_processFrame {n : ℕ} (sp : Fin n → ℕ) (S k : ℕ) (kc : List ℕ) :
    ∀ (clusters : List (List (Fin n))) (t : CompTable),
      lookupCount t k kc ≤ lookupCount (processFrameComps sp S clusters t) k kc := by
  intro clusters
  induction clusters with
  | nil => exact fun t => le_refl _
  | cons c rest ih =>
      intro t
      exact le_trans (lookupCount_le_bumpComp t c.length k (compOf sp S c) kc)
        (ih (bumpComp t c.length (compOf sp S c)))

theorem C10_composition_invariant {n : ℕ} (sp : Fin n → ℕ) (S : ℕ)
    (clusters : List (List (Fin n))) (t : CompTable)
    (hsp : ∀ c ∈ clusters, ∀ p ∈ c, sp p < S) (ht : CompInv t) :
    CompInv (processFrameComps sp S clusters t) ∧
    (∀ (t' : CompTable) (c : List (Fin n)) (k : ℕ) (kc : List ℕ),
      lookupCount t' k kc
        ≤ lookupCount (bumpComp t' c.length (compOf sp S c)) k kc) ∧
    (∀ (k : ℕ) (kc : List ℕ),
      lookupCount t k kc ≤ lookupCount (processFrameComps sp S clusters t) k kc) :=
  ⟨compInv_processFrame sp S clusters t hsp ht,
   fun t' c k kc => lookupCount_le_bumpComp t' c.length k (compOf sp S c) kc,
   fun k kc => lookupCount_le_processFrame sp S k kc clusters t⟩

/-- C10 witness: two species, one frame with clusters `{0}` and `{1, 2}`
(protein 0 of species 0, proteins 1 and 2 of species 1): the resulting table
satisfies the invariant and the count stored for size 2 with composition
`[0, 2]` is positive. -/
theorem C10_witness :
    CompInv (processFrameComps (fun p : Fin 3 => if (p : ℕ) = 0 then 0 else 1) 2
      [[0], [1, 2]] []) ∧
    1 ≤ lookupCount (processFrameComps
      (fun p : Fin 3 => if (p : ℕ) = 0 then 0 else 1) 2 [[0], [1, 2]] []) 2 [0, 2] := by
  have h := C10_composition_invariant (fun p : Fin 3 => if (p : ℕ) = 0 then 0 else 1) 2
    [[0], [1, 2]] [] (by decide) (by intro e he r hr; simp at he)
  refine ⟨h.1, ?_⟩
  have : lookupCount (processFrameComps
      (fun p : Fin 3 => if (p : ℕ) = 0 then 0 else 1) 2 [[0], [1, 2]] []) 2 [0, 2] = 1 := by
    decide
  omega

/-! ## Composition statistics (calculate_statistics, lines 2269-2293)

For each sampled size the code runs, per species, Welford's incremental
algorithm over the fractional representation `comp[s]/c_size` of every
observed cluster of that size (lines 2282-2288: each composition tuple
`comp` with multiplicity `nb`), then reports the per-species means
(`clusters_comp_avg[c_index, :] = tmp_mean * 100`, a whole-row vector
assignment) and, at line 2293, assigns
`clusters_comp_std[c_index, :] = sqrt(tmp_M2[s_index]/tmp_n[s_index]) * 100`
— a scalar broadcast over the whole row, executed for every `s_index` with
samples, so the row ends up holding the LAST species' value in every column.
Since `np.sqrt` is strictly monotone on nonnegatives, the reported standard
deviations are modelled by their squares (`(sqrt(M2/n)*100)^2 = M2/n*10000`),
which is faithful for equality and disparity. -/

/-- One Welford update of the `(count, mean, M2)` triple (lines 2285-2288). -/
def welfordStep (st : ℚ × ℚ × ℚ) (x : ℚ) : ℚ × ℚ × ℚ :=
  let n := st.1 + 1
  let delta := x - st.2.1
  let mean := st.2.1 + delta / n
  (n, mean, st.2.2 + delta * (x - mean))

/-- The observation sequence seen by species `s` for one sampled size: each
composition tuple's fraction `comp[s]/c_size`, repeated `nb` times, in table
order (lines 2282-2284). -/
def obsSeq (comps : List (List ℕ × ℕ)) (s csize : ℕ) : List ℚ :=
  comps.flatMap (fun cn => List.replicate cn.2 ((cn.1.getD s 0 : ℚ) / (csize : ℚ)))

def welfordRun (obs : List ℚ) : ℚ × ℚ × ℚ := obs.foldl welfordStep (0, 0, 0)

/-- Index of the last species whose sample count is positive: the survivor
of the sequential whole-row assignments of line 2293. -/
def lastPosIdx (S : ℕ) (nOf : ℕ → ℚ) : Option ℕ :=
  (List.range S).foldl (fun acc s => if 0 < nOf s then some s else acc) none

/-- Squared reported standard deviation (times 10000) for species `s` of one
sampled size, as the code computes it: the whole row holds the last sampled
species' value (line 2293 broadcasts a scalar into `[c_index, :]`). -/
def compStdSqReported (comps : List (List ℕ × ℕ)) (csize S : ℕ) (s : ℕ) : ℚ :=
  if s < S then
    match lastPosIdx S (fun u => (welfordRun (obsSeq comps u csize)).1) with
    | none => 0
    | some sl =>
      (welfordRun (obsSeq comps sl csize)).2.2
        / (welfordRun (obsSeq comps sl csize)).1 * 10000
  else 0

/-- Squared standard deviation (times 10000) species `s` should be reported
with per the specification: that species' own `M2/n`. -/
def compStdSqOwn (comps : List (List ℕ × ℕ)) (csize S : ℕ) (s : ℕ) : ℚ :=
  if s < S ∧ 0 < (welfordRun (obsSeq comps s csize)).1 then
    (welfordRun (obsSeq comps s csize)).2.2
      / (welfordRun (obsSeq comps s csize)).1 * 10000
  else 0

/-- Reported mean (times 100) for species `s`: line 2291 assigns the whole
per-species vector, so every species does get its own mean. -/
def compAvgReported (comps : List (List ℕ × ℕ)) (csize S : ℕ) (s : ℕ) : ℚ :=
  if s < S then (welfordRun (obsSeq comps s csize)).2.1 * 100 else 0

/-- Failing input for C6: one sampled size 2 with three species, clusters
`(2,0,0)` and `(1,1,0)` observed once each. -/
def exComps : List (List ℕ × ℕ) := [([2, 0, 0], 1), ([1, 1, 0], 1)]

/-- C6 divergence, evaluated on `exComps` at size 2 with 3 species: species
0's own variance-based value is 625 (std 25 after scaling) and its reported
mean is the correct 75, but the code reports 0 for species 0's standard
deviation because line 2293 broadcasts the last species' (species 2, never
sampled above fraction 0, hence variance 0) value over the whole row. -/
theorem C6_code_divergence :
    compAvgReported exComps 2 3 0 = 75 ∧
    compStdSqOwn exComps 2 3 0 = 625 ∧
    compStdSqReported exComps 2 3 0 = 0 ∧
    compStdSqReported exComps 2 3 0 ≠ compStdSqOwn exComps 2 3 0 := by
  have hobs0 : obsSeq exComps 0 2 = [1, 1/2] := by
    norm_num [obsSeq, exComps]
  have hobs1 : obsSeq exComps 1 2 = [0, 1/2] := by
    norm_num [obsSeq, exComps]
  have hobs2 : obsSeq exComps 2 2 = [0, 0] := by
    norm_num [obsSeq, exComps]
  have hw0 : welfordRun (obsSeq exComps 0 2) = (2, 3/4, 1/8) := by
    rw [hobs0]
    norm_num [welfordRun, welfordStep, Prod.ext_iff]
  have hw1 : welfordRun (obsSeq exComps 1 2) = (2, 1/4, 1/8) := by
    rw [hobs1]
    norm_num [welfordRun, welfordStep, Prod.ext_iff]
  have hw2 : welfordRun (obsSeq exComps 2 2) = (2, 0, 0) := by
    rw [hobs2]
    norm_num [welfordRun, welfordStep, Prod.ext_iff]
  have hlast : lastPosIdx 3 (fun u => (welfordRun (obsSeq exComps u 2)).1)
      = some 2 := by
    simp only [lastPosIdx, show List.range 3 = [0, 1, 2] by rfl, List.foldl_cons,
      List.foldl_nil, hw0, hw1, hw2]
    norm_num
  refine ⟨?_, ?_, ?_, ?_⟩
  · rw [compAvgReported, if_pos (by norm_num), hw0]
    norm_num
  · rw [compStdSqOwn, if_pos (by rw [hw0]; norm_num), hw0]
    norm_num
  · rw [compStdSqReported, if_pos (by norm_num), hlast]
    simp only [hw2]
    norm_num
  · rw [compStdSqReported, if_pos (by norm_num), hlast,
      compStdSqOwn, if_pos (by rw [hw0]; norm_num), hw0]
    simp only [hw2]
    norm_num

/-! ## Residue-contact accumulation for one treated pair
(process_clusters lines 1703-1726; the same block is repeated verbatim in
process_clusters_TM lines 1893-1914)

For a treated neighbour pair (protein of species `s1`, neighbour of species
`s2`) the code computes the residue-centroid distance matrix `D` oriented
with the lower species index first, then increments the cumulative matrices
of the species-pair key `(min s1 s2, max s1 s2)` at every entry of the mask
`D < args.res_contact` — in the overall dict, the per-size dict (zero matrix
lazily allocated on a new size key, modelled by a total function defaulting
to zero) and, when groups are configured, the per-group dict.  When
`s1 == s2` the same three matrices are additionally incremented at the
transposed mask.  Matrices are `ℕ → ℕ →  ℕ` functions; live entries are the
ones below the residue counts `len s1 × len s2`. -/

/-- Number of residue pairs in contact: entries of the `L1 × L2` distance
matrix below the cutoff (`np.sum(dist_matrix < args.res_contact)`). -/
def maskCnt (L1 L2 : ℕ) (D : ℕ → ℕ → ℚ) (cut : ℚ) : ℕ :=
  ((Finset.range L1 ×ˢ Finset.range L2).filter (fun ij => D ij.1 ij.2 < cut)).card

/-- Increment at the contact mask (`A[dist < cut] += 1`). -/
def maskInc (A : ℕ → ℕ → ℕ) (D : ℕ → ℕ → ℚ) (cut : ℚ) : ℕ → ℕ → ℕ :=
  fun i j => if D i j < cut then A i j + 1 else A i j

/-- Increment at the transposed contact mask (`A[(dist < cut).T] += 1`). -/
def maskIncT (A : ℕ → ℕ → ℕ) (D : ℕ → ℕ → ℚ) (cut : ℚ) : ℕ → ℕ → ℕ :=
  fun i j => if D j i < cut then A i j + 1 else A i j

/-- The three residue-contact accumulators, keyed by ordered species pair
(and size resp. group for the lazily allocated dicts). -/
structure ResAcc where
  overall : ℕ × ℕ → ℕ → ℕ → ℕ
  bySize : ℕ × ℕ → ℕ → ℕ → ℕ → ℕ
  byGroup : ℕ × ℕ → ℕ → ℕ → ℕ → ℕ

/-- Accumulation for one treated pair: mask increment on the key
`(min s1 s2, max s1 s2)` in all three dicts, plus the transposed-mask
increment when the pair is homotypic. -/
def procPairRes (acc : ResAcc) (s1 s2 csize g : ℕ) (D : ℕ → ℕ → ℚ)
    (cut : ℚ) (useGroups : Bool) : ResAcc :=
  let key := (min s1 s2, max s1 s2)
  let bump : (ℕ → ℕ → ℕ) → ℕ → ℕ → ℕ := fun A =>
    if s1 = s2 then maskIncT (maskInc A D cut) D cut else maskInc A D cut
  { overall := fun k => if k = key then bump (acc.overall k) else acc.overall k
    bySize := fun k sz =>
      if k = key ∧ sz = csize then bump (acc.bySize k sz) else acc.bySize k sz
    byGroup := fun k gg =>
      if useGroups = true ∧ k = key ∧ gg = g then bump (acc.byGroup k gg)
      else acc.byGroup k gg }

lemma maskInc_eq (A : ℕ → ℕ → ℕ) (D : ℕ → ℕ → ℚ) (cut : ℚ) (i j : ℕ) :
    maskInc A D cut i j = A i j + (if D i j < cut then 1 else 0) := by
  rw [maskInc]
  by_cases h : D i j < cut <;> simp [h]

lemma maskIncT_eq (A : ℕ → ℕ → ℕ) (D : ℕ → ℕ → ℚ) (cut : ℚ) (i j : ℕ) :
    maskIncT A D cut i j = A i j + (if D j i < cut then 1 else 0) := by
  rw [maskIncT]
  by_cases h : D j i < cut <;> simp [h]

lemma sum_mask_ind (L1 L2 : ℕ) (D : ℕ → ℕ → ℚ) (cut : ℚ) :
    Finset.sum (Finset.range L1 ×ˢ Finset.range L2)
      (fun ij => if D ij.1 ij.2 < cut then 1 else 0) = maskCnt L1 L2 D cut := by
  rw [maskCnt, Finset.card_filter]

lemma sum_maskT_ind (L : ℕ) (D : ℕ → ℕ → ℚ) (cut : ℚ) :
    Finset.sum (Finset.range L ×ˢ Finset.range L)
      (fun ij => if D ij.2 ij.1 < cut then 1 else 0) = maskCnt L L D cut := by
  rw [← sum_mask_ind L L D cut, Finset.sum_product, Finset.sum_product]
  exact Finset.sum_comm

lemma sum_add_ind (R : Finset (ℕ × ℕ)) (A : ℕ → ℕ → ℕ) (f : ℕ × ℕ → ℕ) :
    Finset.sum R (fun ij => A ij.1 ij.2 + f ij)
      = Finset.sum R (fun ij => A ij.1 ij.2) + Finset.sum R f :=
  Finset.sum_add_distrib

/-- C5: for a treated homotypic pair (`s1 = s2 = s`), the species-pair
matrix at key `(s, s)` is incremented at the mask and the transposed mask in
the overall, per-size and per-group accumulators, so the pair contributes
exactly twice the number of residue pairs in contact to each; all other
keys are untouched.  For a heterotypic pair only the key with the lower
species index first is incremented, only at the (un-transposed) mask,
contributing the count once; all other keys — in particular the reversed
orientation — are untouched. -/
theorem C5_contact_increments (acc : ResAcc) (s1 s2 csize g : ℕ)
    (len : ℕ → ℕ) (D : ℕ → ℕ → ℚ) (cut : ℚ) (useGroups : Bool) :
    (s1 = s2 →
      (∀ i j, (procPairRes acc s1 s2 csize g D cut useGroups).overall (s1, s1) i j
          = acc.overall (s1, s1) i j + (if D i j < cut then 1 else 0)
            + (if D j i < cut then 1 else 0)) ∧
      (Finset.sum (Finset.range (len s1) ×ˢ Finset.range (len s1))
          (fun ij => (procPairRes acc s1 s2 csize g D cut useGroups).overall
            (s1, s1) ij.1 ij.2)
        = Finset.sum (Finset.range (len s1) ×ˢ Finset.range (len s1))
            (fun ij => acc.overall (s1, s1) ij.1 ij.2)
          + 2 * maskCnt (len s1) (len s1) D cut) ∧
      (∀ i j, (procPairRes acc s1 s2 csize g D cut useGroups).bySize (s1, s1) csize i j
          = acc.bySize (s1, s1) csize i j + (if D i j < cut then 1 else 0)
            + (if D j i < cut then 1 else 0)) ∧
      (useGroups = true →
        ∀ i j, (procPairRes acc s1 s2 csize g D cut useGroups).byGroup (s1, s1) g i j
          = acc.byGroup (s1, s1) g i j + (if D i j < cut then 1 else 0)
            + (if D j i < cut then 1 else 0))) ∧
    (s1 ≠ s2 →
      (∀ i j, (procPairRes acc s1 s2 csize g D cut useGroups).overall
            (min s1 s2, max s1 s2) i j
          = acc.overall (min s1 s2, max s1 s2) i j
            + (if D i j < cut then 1 else 0)) ∧
      (∀ L1 L2, Finset.sum (Finset.range L1 ×ˢ Finset.range L2)
          (fun ij => (procPairRes acc s1 s2 csize g D cut useGroups).overall
            (min s1 s2, max s1 s2) ij.1 ij.2)
        = Finset.sum (Finset.range L1 ×ˢ Finset.range L2)
            (fun ij => acc.overall (min s1 s2, max s1 s2) ij.1 ij.2)
          + maskCnt L1 L2 D cut) ∧
      (∀ i j, (procPairRes acc s1 s2 csize g D cut useGroups).bySize
            (min s1 s2, max s1 s2) csize i j
          = acc.bySize (min s1 s2, max s1 s2) csize i j
            + (if D i j < cut then 1 else 0))) ∧
    (∀ k, k ≠ (min s1 s2, max s1 s2) →
      (procPairRes acc s1 s2 csize g D cut useGroups).overall k = acc.overall k) ∧
    (∀ k sz, ¬(k = (min s1 s2, max s1 s2) ∧ sz = csize) →
      (procPairRes acc s1 s2 csize g D cut useGroups).bySize k sz
        = acc.bySize k sz) ∧
    (∀ k gg, ¬(useGroups = true ∧ k = (min s1 s2, max s1 s2) ∧ gg = g) →
      (procPairRes acc s1 s2 csize g D cut useGroups).byGroup k gg
        = acc.byGroup k gg) := by
  refine ⟨?_, ?_, ?_, ?_, ?_⟩
  · intro h
    subst h
    have hbump : ∀ A : ℕ → ℕ → ℕ, ∀ i j,
        maskIncT (maskInc A D cut) D cut i j
          = A i j + (if D i j < cut then 1 else 0) + (if D j i < cut then 1 else 0) := by
      intro A i j
      rw [maskIncT_eq, maskInc_eq]
    have hover : ∀ i j,
        (procPairRes acc s1 s1 csize g D cut useGroups).overall (s1, s1) i j
          = acc.overall (s1, s1) i j + (if D i j < cut then 1 else 0)
            + (if D j i < cut then 1 else 0) := by
      intro i j
      simp only [procPairRes, min_self, max_self, eq_self_iff_true, if_true]
      rw [hbump]
    refine ⟨hover, ?_, ?_, ?_⟩
    · rw [Finset.sum_congr rfl (fun ij _ => hover ij.1 ij.2)]
      rw [show (fun ij : ℕ × ℕ => acc.overall (s1, s1) ij.1 ij.2
            + (if D ij.1 ij.2 < cut then 1 else 0)
            + (if D ij.2 ij.1 < cut then 1 else 0))
          = (fun ij : ℕ × ℕ => acc.overall (s1, s1) ij.1 ij.2
            + ((if D ij.1 ij.2 < cut then 1 else 0)
              + (if D ij.2 ij.1 < cut then 1 else 0))) from funext (fun ij => by ring)]
      rw [sum_add_ind, Finset.sum_add_distrib, sum_mask_ind, sum_maskT_ind]
      ring
    · intro i j
      simp only [procPairRes, min_self, max_self, eq_self_iff_true, and_self, if_true]
      rw [hbump]
    · intro hug i j
      simp only [procPairRes, hug, min_self, max_self, eq_self_iff_true, and_self,
        if_true]
      rw [hbump]
  · intro hne
    have hover : ∀ i j,
        (procPairRes acc s1 s2 csize g D cut useGroups).overall
            (min s1 s2, max s1 s2) i j
          = acc.overall (min s1 s2, max s1 s2) i j
            + (if D i j < cut then 1 else 0) := by
      intro i j
      simp only [procPairRes, eq_self_iff_true, and_self, if_true, if_neg hne]
      rw [maskInc_eq]
    refine ⟨hover, ?_, ?_⟩
    · intro L1 L2
      rw [Finset.sum_congr rfl (fun ij _ => hover ij.1 ij.2), sum_add_ind,
        sum_mask_ind]
    · intro i j
      simp only [procPairRes, eq_self_iff_true, and_self, if_true, if_neg hne]
      rw [maskInc_eq]
  · intro k hk
    simp only [procPairRes, if_neg hk]
  · intro k sz hk
    simp only [procPairRes, if_neg hk]
  · intro k gg hk
    simp only [procPairRes, if_neg hk]

/-- C5 witness: a homotypic pair of species 0 with a 2×2 distance matrix
having exactly one entry in contact adds exactly 2 to the total of the
`(0, 0)` matrix, and a heterotypic pair (species 1 and 0) leaves every key
other than `(0, 1)` untouched. -/
theorem C5_witness :
    (Finset.sum (Finset.range 2 ×ˢ Finset.range 2)
        (fun ij => (procPairRes ⟨fun _ _ _ => 0, fun _ _ _ _ => 0, fun _ _ _ _ => 0⟩
          0 0 3 0 (fun i j => if i = 0 ∧ j = 1 then 1 else 10) 5 false).overall
            (0, 0) ij.1 ij.2) = 2) ∧
    ((procPairRes ⟨fun _ _ _ => 0, fun _ _ _ _ => 0, fun _ _ _ _ => 0⟩
        1 0 3 0 (fun _ _ => 10) 5 false).overall (1, 0) = fun _ _ => 0) := by
  constructor
  · have h := (C5_contact_increments
        ⟨fun _ _ _ => 0, fun _ _ _ _ => 0, fun _ _ _ _ => 0⟩ 0 0 3 0 (fun _ => 2)
        (fun i j => if i = 0 ∧ j = 1 then 1 else 10) 5 false).1 rfl
    rw [h.2.1]
    rw [show maskCnt 2 2 (fun i j => if i = 0 ∧ j = 1 then (1 : ℚ) else 10) 5 = 1
      from by decide]
    simp
  · exact (C5_contact_increments
        ⟨fun _ _ _ => 0, fun _ _ _ _ => 0, fun _ _ _ _ => 0⟩ 1 0 3 0 (fun _ => 2)
        (fun _ _ => 10) 5 false).2.2.1 (1, 0) (by decide)

/-! ## Configuration validation (module level lines 489-537, initialise_groups
lines 1363-1375) and pipeline sequencing

The cutoff-definition file is read and validated at module level, and
`initialise_groups` validates the group file, both before the trajectory
loop at the bottom of the script runs `process_clusters` per frame.  A
cutoff line is its comma-split fields; `int(...)` on a non-integer field or
a wrong field count terminates the run (explicit `sys.exit(1)` for the
field count, an uncaught exception for the int conversion — both fatal
before any frame), as do the index checks at lines 525-537: minimum species
index not 0, maximum index at least the number of distinct indices, or any
pair of indices below that number without a stored cutoff (keys are
inserted symmetrically at lines 518-519).  `min()` of an empty file's index
list likewise raises.  The group checks at 1363-1375 reject `max < min` and
a lower bound not strictly above the previous upper bound; an empty group
file raises `KeyError` at line 1364. -/

/-- Parsing one comma-split line: exactly 3 fields and integer species
indices (`pint` abstracts Python's `int()`, which raises on failure; the
cutoff value field is kept opaque since only its parse failure — also
fatal — would matter, and the claim's error classes concern the indices). -/
def parseCutoffLine (pint : String → Option ℤ) (l : List String) :
    Except String (ℤ × ℤ × String) :=
  match l with
  | [f0, f1, f2] =>
    match pint f0, pint f1 with
    | some a, some b => Except.ok (a, b, f2)
    | _, _ => Except.error "incorrect line format"
  | _ => Except.error "incorrect line format"

def parseCutoffLines (pint : String → Option ℤ) :
    List (List String) → Except String (List (ℤ × ℤ × String))
  | [] => Except.ok []
  | l :: ls =>
    match parseCutoffLine pint l with
    | Except.error e => Except.error e
    | Except.ok r =>
      match parseCutoffLines pint ls with
      | Except.error e => Except.error e
      | Except.ok rs => Except.ok (r :: rs)

/-- Keys of `cog_cutoff_values`: both orientations of every declared pair
(lines 518-519). -/
def cutoffKeys (recs : List (ℤ × ℤ × String)) : List (ℤ × ℤ) :=
  recs.flatMap (fun r => [(r.1, r.2.1), (r.2.1, r.1)])

/-- The raw index list `s_indices` (lines 522-523). -/
def sIndices (recs : List (ℤ × ℤ × String)) : List ℤ :=
  recs.flatMap (fun r => [r.1, r.2.1])

def listMinInt : List ℤ → ℤ
  | [] => 0
  | x :: xs => xs.foldl min x

def listMaxInt : List ℤ → ℤ
  | [] => 0
  | x :: xs => xs.foldl max x

/-- Checks of lines 525-537 over the parsed records. -/
def checkCutoffs (recs : List (ℤ × ℤ × String)) : Except String Unit :=
  if recs = [] then Except.error "empty cutoff file"
  else
    let uniq := (sIndices recs).dedup
    if listMinInt uniq ≠ 0 then Except.error "species indexing should start at 0"
    else if (uniq.length : ℤ) ≤ listMaxInt uniq then
      Except.error "cutoff not specified for all species"
    else if !((List.range uniq.length).all (fun s =>
        (List.range uniq.length).all (fun ss =>
          decide (((s : ℤ), (ss : ℤ)) ∈ cutoffKeys recs)))) then
      Except.error "cutoff not specified for all species"
    else Except.ok ()

def loadCutoffFile (pint : String → Option ℤ) (lines : List (List String)) :
    Except String (List (ℤ × ℤ × String)) :=
  match parseCutoffLines pint lines with
  | Except.error e => Except.error e
  | Except.ok recs =>
    match checkCutoffs recs with
    | Except.error e => Except.error e
    | Except.ok _ => Except.ok recs

def checkGroupsFrom (prev : ℤ × ℤ) : List (ℤ × ℤ) → Except String Unit
  | [] => Except.ok ()
  | b :: rest =>
    if b.2 < b.1 then Except.error "the max size is smaller than the min size"
    else if b.1 ≤ prev.2 then
      Except.error "groups overlap or are not in increasing order"
    else checkGroupsFrom b rest

/-- Checks of lines 1363-1375 over the parsed group boundaries. -/
def checkGroupBoundaries : List (ℤ × ℤ) → Except String Unit
  | [] => Except.error "no group defined"
  | b :: rest =>
    if b.2 < b.1 then Except.error "the max size is smaller than the min size"
    else checkGroupsFrom b rest

/-- The run: cutoff-file validation, then group-file validation, then the
frame loop; the result is the number of frames processed.  Config errors
abort before the first frame. -/
def runPipeline (pint : String → Option ℤ) (cutLines : List (List String))
    (bs : List (ℤ × ℤ)) (frames : List ℕ) : Except String ℕ :=
  match loadCutoffFile pint cutLines with
  | Except.error e => Except.error e
  | Except.ok _ =>
    match checkGroupBoundaries bs with
    | Except.error e => Except.error e
    | Except.ok _ => Except.ok frames.length

lemma parseCutoffLine_ok (pint : String → Option ℤ) (l : List String)
    (r : ℤ × ℤ × String) (h : parseCutoffLine pint l = Except.ok r) :
    l.length = 3 ∧ (pint (l.getD 0 "")).isSome ∧ (pint (l.getD 1 "")).isSome := by
  rcases l with _ | ⟨f0, _ | ⟨f1, _ | ⟨f2, _ | ⟨f3, rest⟩⟩⟩⟩
  · simp [parseCutoffLine] at h
  · simp [parseCutoffLine] at h
  · simp [parseCutoffLine] at h
  · refine ⟨rfl, ?_, ?_⟩ <;>
      rcases h0 : pint f0 with _ | a <;> rcases h1 : pint f1 with _ | b <;>
        simp [parseCutoffLine, h0, h1, List.getD] at h ⊢
  · simp [parseCutoffLine] at h

lemma parseCutoffLines_ok (pint : String → Option ℤ)
    (lines : List (List String)) (recs : List (ℤ × ℤ × String))
    (h : parseCutoffLines pint lines = Except.ok recs) :
    ∀ l ∈ lines, l.length = 3 ∧ (pint (l.getD 0 "")).isSome ∧
      (pint (l.getD 1 "")).isSome := by
  induction lines generalizing recs with
  | nil => simp
  | cons l ls ih =>
      intro m hm
      rw [parseCutoffLines] at h
      rcases hline : parseCutoffLine pint l with e | r
      · rw [hline] at h
        exact absurd h (by simp)
      · rw [hline] at h
        rcases hrest : parseCutoffLines pint ls with e | rs
        · rw [hrest] at h
          exact absurd h (by simp)
        · rcases List.mem_cons.mp hm with rfl | hm
          · exact parseCutoffLine_ok pint m r hline
          · exact ih rs hrest m hm

lemma checkCutoffs_ok (recs : List (ℤ × ℤ × String))
    (h : checkCutoffs recs = Except.ok ()) :
    recs ≠ [] ∧ listMinInt ((sIndices recs).dedup) = 0 ∧
    listMaxInt ((sIndices recs).dedup) < ((sIndices recs).dedup).length ∧
    (∀ s ss : ℕ, s < ((sIndices recs).dedup).length →
      ss < ((sIndices recs).dedup).length →
      ((s : ℤ), (ss : ℤ)) ∈ cutoffKeys recs) := by
  rw [checkCutoffs] at h
  by_cases h0 : recs = []
  · rw [if_pos h0] at h
    exact absurd h (by simp)
  · rw [if_neg h0] at h
    simp only at h
    by_cases h1 : listMinInt ((sIndices recs).dedup) ≠ 0
    · rw [if_pos h1] at h
      exact absurd h (by simp)
    · rw [if_neg h1] at h
      by_cases h2 : (((sIndices recs).dedup).length : ℤ)
          ≤ listMaxInt ((sIndices recs).dedup)
      · rw [if_pos h2] at h
        exact absurd h (by simp)
      · rw [if_neg h2] at h
        rcases h3 : (List.range ((sIndices recs).dedup).length).all (fun s =>
            (List.range ((sIndices recs).dedup).length).all (fun ss =>
              decide (((s : ℤ), (ss : ℤ)) ∈ cutoffKeys recs))) with _ | _
        · rw [h3] at h
          simp at h
        · rw [h3] at h
          refine ⟨h0, by omega, by omega, ?_⟩
          intro sp ssp hs hss
          rw [List.all_eq_true] at h3
          have h4 := h3 sp (List.mem_range.mpr hs)
          rw [List.all_eq_true] at h4
          have h5 := h4 ssp (List.mem_range.mpr hss)
          simpa using h5

lemma checkGroupsFrom_ok (prev : ℤ × ℤ) (rest : List (ℤ × ℤ))
    (h : checkGroupsFrom prev rest = Except.ok ()) :
    (∀ b ∈ rest, b.1 ≤ b.2) ∧ (prev :: rest).Chain' (fun b c => b.2 < c.1) := by
  induction rest generalizing prev with
  | nil => simp
  | cons b rest ih =>
      rw [checkGroupsFrom] at h
      by_cases hb : b.2 < b.1
      · rw [if_pos hb] at h
        exact absurd h (by simp)
      · rw [if_neg hb] at h
        by_cases ho : b.1 ≤ prev.2
        · rw [if_pos ho] at h
          exact absurd h (by simp)
        · rw [if_neg ho] at h
          rcases ih b h with ⟨hall, hch⟩
          refine ⟨?_, ?_⟩
          · intro c hc
            rcases List.mem_cons.mp hc with rfl | hc
            · omega
            · exact hall c hc
          · exact List.chain'_cons.mpr ⟨by omega, hch⟩

lemma checkGroupBoundaries_ok (bs : List (ℤ × ℤ))
    (h : checkGroupBoundaries bs = Except.ok ()) :
    bs ≠ [] ∧ (∀ b ∈ bs, b.1 ≤ b.2) ∧ bs.Chain' (fun b c => b.2 < c.1) := by
  cases bs with
  | nil => exact absurd h (by simp [checkGroupBoundaries])
  | cons b rest =>
      rw [checkGroupBoundaries] at h
      by_cases hb : b.2 < b.1
      · rw [if_pos hb] at h
        exact absurd h (by simp)
      · rw [if_neg hb] at h
        rcases checkGroupsFrom_ok b rest h with ⟨hall, hch⟩
        refine ⟨by simp, ?_, hch⟩
        intro c hc
        rcases List.mem_cons.mp hc with rfl | hc
        · omega
        · exact hall c hc

/-- C9: configuration errors are fatal and precede frame processing.  If the
run reaches the frame loop (`runPipeline … = ok`), then every cutoff line
had 3 fields with integer indices, the distinct species indices start at 0
and are contiguous (max below their count), every species pair below that
count has a stored cutoff, and the group boundaries all satisfy `min ≤ max`
and are strictly increasing without overlap.  Conversely any cutoff-file or
group-file validation error makes the whole run an error, so the frame loop
never starts and no frame count is produced. -/
theorem C9_config_errors (pint : String → Option ℤ)
    (cutLines : List (List String)) (bs : List (ℤ × ℤ))
    (frames : List ℕ) :
    (∀ k, runPipeline pint cutLines bs frames = Except.ok k →
      k = frames.length ∧
      (∀ l ∈ cutLines, l.length = 3 ∧ (pint (l.getD 0 "")).isSome ∧
        (pint (l.getD 1 "")).isSome) ∧
      (∃ recs, parseCutoffLines pint cutLines = Except.ok recs ∧ recs ≠ [] ∧
        listMinInt ((sIndices recs).dedup) = 0 ∧
        listMaxInt ((sIndices recs).dedup) < ((sIndices recs).dedup).length ∧
        (∀ s ss : ℕ, s < ((sIndices recs).dedup).length →
          ss < ((sIndices recs).dedup).length →
          ((s : ℤ), (ss : ℤ)) ∈ cutoffKeys recs)) ∧
      bs ≠ [] ∧ (∀ b ∈ bs, b.1 ≤ b.2) ∧ bs.Chain' (fun b c => b.2 < c.1)) ∧
    (∀ e, loadCutoffFile pint cutLines = Except.error e →
      runPipeline pint cutLines bs frames = Except.error e) ∧
    (∀ e, (∃ recs, loadCutoffFile pint cutLines = Except.ok recs) →
      checkGroupBoundaries bs = Except.error e →
      runPipeline pint cutLines bs frames = Except.error e) := by
  refine ⟨?_, ?_, ?_⟩
  · intro k hk
    rw [runPipeline] at hk
    rcases hload : loadCutoffFile pint cutLines with e | recs
    · rw [hload] at hk
      exact absurd hk (by simp)
    · rw [hload] at hk
      rcases hgrp : checkGroupBoundaries bs with e | u
      · rw [hgrp] at hk
        exact absurd hk (by simp)
      · rw [hgrp] at hk
        have hk' : k = frames.length := (Except.ok.inj hk).symm
        rw [loadCutoffFile] at hload
        rcases hparse : parseCutoffLines pint cutLines with e | recs'
        · simp [hparse] at hload
        · simp only [hparse] at hload
          rcases hchk : checkCutoffs recs' with e | u'
          · simp [hchk] at hload
          · cases u'
            rcases checkCutoffs_ok recs' hchk with ⟨hne, hmin, hmax, hcov⟩
            cases u
            rcases checkGroupBoundaries_ok bs hgrp with ⟨hbne, hlohi, hch⟩
            exact ⟨hk', parseCutoffLines_ok pint cutLines recs' hparse,
              ⟨recs', rfl, hne, hmin, hmax, hcov⟩, hbne, hlohi, hch⟩
  · intro e he
    rw [runPipeline, he]
  · intro e hok hgrp
    rcases hok with ⟨recs, hok⟩
    rw [runPipeline, hok, hgrp]

/-- A concrete stand-in for Python's `int()` used only to instantiate the
theorem on a concrete input. -/
def pintEx (st : String) : Option ℤ := if st = "0" then some 0 else none

/-- C9 witness: a valid one-species cutoff file and a single open-ended
group pass validation and the run processes both frames; applying the
theorem recovers the validated facts. -/
theorem C9_witness :
    runPipeline pintEx [["0", "0", "8"]] [(1, 100000)] [7, 8] = Except.ok 2 ∧
    (∀ l ∈ [["0", "0", "8"]], l.length = 3) ∧
    ([((1 : ℤ), (100000 : ℤ))].Chain' (fun b c => b.2 < c.1)) := by
  have hrun : runPipeline pintEx [["0", "0", "8"]] [(1, 100000)] [7, 8]
      = Except.ok 2 := by rfl
  have h := (C9_config_errors pintEx [["0", "0", "8"]] [(1, 100000)] [7, 8]).1 2 hrun
  exact ⟨hrun, fun l hl => (h.2.1 l hl).1, h.2.2.2.2.2⟩

/-! ## Connectivity-based clustering (detect_clusters_connectivity lines
1593-1625; cluster extraction and size writes in process_clusters lines
1641-1669)

`detect_clusters_connectivity` builds the boolean matrix
`connected[i][j] = dist[i][j] < cutoff(species(i), species(j))` (blockwise
when a per-species-pair cutoff table is given, else a single scalar) and
passes it to `nx.Graph`, which keeps an undirected edge wherever either
orientation is nonzero and whose connected components are extracted by
`process_clusters` (`sorted(nx.connected_components(network))`), each
protein's per-frame size entry being written once per cluster containing
it (`proteins_size[f_index, cluster] = c_size`).  The cutoff is an
arbitrary function of the two protein indices here (it factors through
their species in the source); `SimpleGraph.fromRel` mirrors `nx.Graph`'s
symmetrization, and reachability classes mirror the components. -/

def protAdj (n : ℕ) (d co : Fin n → Fin n → ℚ) (i j : Fin n) : Prop :=
  d i j < co i j

instance protAdjDec (n : ℕ) (d co : Fin n → Fin n → ℚ) :
    DecidableRel (protAdj n d co) := fun i j => by
  rw [protAdj]
  infer_instance

def protGraph (n : ℕ) (d co : Fin n → Fin n → ℚ) : SimpleGraph (Fin n) :=
  SimpleGraph.fromRel (protAdj n d co)

instance protGraphAdjDec (n : ℕ) (d co : Fin n → Fin n → ℚ) :
    DecidableRel (protGraph n d co).Adj := fun a b =>
  decidable_of_iff (a ≠ b ∧ (protAdj n d co a b ∨ protAdj n d co b a))
    (SimpleGraph.fromRel_adj (protAdj n d co) a b).symm

/-- The cluster (connected component, as a vertex set) of protein `i`. -/
def clusterOf (n : ℕ) (d co : Fin n → Fin n → ℚ) (i : Fin n) : Finset (Fin n) :=
  Finset.univ.filter (fun j => (protGraph n d co).Reachable i j)

/-- The frame's cluster list: the distinct components, each listed once. -/
def clustersList (n : ℕ) (d co : Fin n → Fin n → ℚ) : List (Finset (Fin n)) :=
  ((List.finRange n).map (clusterOf n d co)).dedup

lemma mem_clusterOf (n : ℕ) (d co : Fin n → Fin n → ℚ) (i j : Fin n) :
    j ∈ clusterOf n d co i ↔ (protGraph n d co).Reachable i j := by
  simp [clusterOf]

lemma clusterOf_eq_of_reachable (n : ℕ) (d co : Fin n → Fin n → ℚ)
    (i j : Fin n) (h : (protGraph n d co).Reachable i j) :
    clusterOf n d co i = clusterOf n d co j := by
  ext k
  rw [mem_clusterOf, mem_clusterOf]
  exact ⟨fun hik => h.symm.trans hik, fun hjk => h.trans hjk⟩

lemma length_filter_unique {α : Type} (l : List α) (P : α → Bool) (x : α)
    (hnd : l.Nodup) (hx : x ∈ l) (hPx : P x = true)
    (huniq : ∀ y ∈ l, P y = true → y = x) :
    (l.filter P).length = 1 := by
  induction l with
  | nil => exact absurd hx (List.not_mem_nil x)
  | cons a t ih =>
      rcases List.nodup_cons.mp hnd with ⟨hat, htnd⟩
      by_cases hPa : P a = true
      · have hax : a = x := huniq a (by simp) hPa
        subst hax
        rw [List.filter_cons_of_pos hPa]
        have : t.filter P = [] := by
          rw [List.filter_eq_nil_iff]
          intro y hy hPy
          exact hat ((huniq y (by simp [hy]) hPy) ▸ hy)
        rw [this]
        rfl
      · rw [List.filter_cons_of_neg hPa]
        have hxt : x ∈ t := by
          rcases List.mem_cons.mp hx with rfl | hxt
          · exact absurd hPx hPa
          · exact hxt
        exact ih htnd hxt (fun y hy hPy => huniq y (by simp [hy]) hPy)

/-- C1: the connectivity-based clusters partition the protein index set:
every protein is in its own cluster (size at least 1), two clusters are
equal or disjoint, exactly one cluster of the frame's cluster list contains
any given protein (so its per-frame size entry is written exactly once),
and membership is transitive: if A-B and B-C are each within cutoff then
A, B and C are in the same cluster, with no condition on `d A C`. -/
theorem C1_connectivity_partition (n : ℕ) (d co : Fin n → Fin n → ℚ) :
    (∀ i, i ∈ clusterOf n d co i ∧ 1 ≤ (clusterOf n d co i).card) ∧
    (∀ i j, clusterOf n d co i = clusterOf n d co j ∨
      Disjoint (clusterOf n d co i) (clusterOf n d co j)) ∧
    (∀ p, ((clustersList n d co).filter (fun c => decide (p ∈ c))).length = 1) ∧
    (∀ a b c, protAdj n d co a b → protAdj n d co b c →
      b ∈ clusterOf n d co a ∧ c ∈ clusterOf n d co a) := by
  have hreach_of_adj : ∀ a b : Fin n, protAdj n d co a b →
      (protGraph n d co).Reachable a b := by
    intro a b hab
    by_cases heq : a = b
    · subst heq
      exact SimpleGraph.Reachable.refl a
    · exact SimpleGraph.Adj.reachable
        ((SimpleGraph.fromRel_adj (protAdj n d co) a b).mpr ⟨heq, Or.inl hab⟩)
  refine ⟨?_, ?_, ?_, ?_⟩
  · intro i
    have hmem : i ∈ clusterOf n d co i :=
      (mem_clusterOf n d co i i).mpr (SimpleGraph.Reachable.refl i)
    exact ⟨hmem, Nat.succ_le_of_lt (Finset.card_pos.mpr ⟨i, hmem⟩)⟩
  · intro i j
    by_cases hr : (protGraph n d co).Reachable i j
    · exact Or.inl (clusterOf_eq_of_reachable n d co i j hr)
    · refine Or.inr (Finset.disjoint_left.mpr ?_)
      intro k hki hkj
      exact hr (((mem_clusterOf n d co i k).mp hki).trans
        ((mem_clusterOf n d co j k).mp hkj).symm)
  · intro p
    refine length_filter_unique _ _ (clusterOf n d co p)
      (List.nodup_dedup _) ?_ ?_ ?_
    · rw [clustersList, List.mem_dedup]
      exact List.mem_map.mpr ⟨p, List.mem_finRange p, rfl⟩
    · simpa using (mem_clusterOf n d co p p).mpr (SimpleGraph.Reachable.refl p)
    · intro c hc hpc
      rw [clustersList, List.mem_dedup] at hc
      rcases List.mem_map.mp hc with ⟨q, _, rfl⟩
      have hqp : (protGraph n d co).Reachable q p :=
        (mem_clusterOf n d co q p).mp (by simpa using hpc)
      exact clusterOf_eq_of_reachable n d co q p hqp
  · intro a b c hab hbc
    have hrab := hreach_of_adj a b hab
    have hrbc := hreach_of_adj b c hbc
    exact ⟨(mem_clusterOf n d co a b).mpr hrab,
      (mem_clusterOf n d co a c).mpr (hrab.trans hrbc)⟩

/-- Distance matrix of the spec's 4-protein scenario: proteins 0-1 within
cutoff, proteins 2-3 within cutoff, all other pairs far apart. -/
def dEx : Fin 4 → Fin 4 → ℚ := fun i j =>
  if (i = 0 ∧ j = 1) ∨ (i = 1 ∧ j = 0) ∨ (i = 2 ∧ j = 3) ∨ (i = 3 ∧ j = 2)
    then 5 else 100000

/-- C1 witness: with the scenario distances and a uniform cutoff of 8,
protein 1 lies in protein 0's cluster and both endpoints of a 2-step chain
land in the first protein's cluster (instantiating the transitivity clause
at proteins 0, 1, 0 — adjacency both ways — as a concrete application);
also protein 0's cluster has size at least 1 and is counted exactly once. -/
theorem C1_witness :
    ((1 : Fin 4) ∈ clusterOf 4 dEx (fun _ _ => 8) 0 ∧
      (0 : Fin 4) ∈ clusterOf 4 dEx (fun _ _ => 8) 0) ∧
    1 ≤ (clusterOf 4 dEx (fun _ _ => 8) 0).card ∧
    ((clustersList 4 dEx (fun _ _ => 8)).filter
      (fun c => decide ((0 : Fin 4) ∈ c))).length = 1 := by
  have h := C1_connectivity_partition 4 dEx (fun _ _ => 8)
  have htrans := h.2.2.2 0 1 0 (by norm_num [protAdj, dEx]) (by norm_num [protAdj, dEx])
  exact ⟨⟨htrans.1, htrans.2⟩, (h.1 0).2, h.2.2.1 0⟩

/-! ## Per-frame pair bookkeeping (process_clusters lines 1689-1733)

For every cluster the code resets `tmp_pairs_treated = []`, then iterates
over the members `p` and their graph neighbours `pp`; a pair is processed
only when its normalized key `(min(p,pp), max(p,pp))` is not yet in the
treated list, and processing appends that key.  Processing increments
`proteins_ctcts_prot[p][pp]` and `proteins_ctcts_prot[pp][p]` by the same
`np.sum(dist_p_pp_matrix < args.res_contact)` (the matrix is computed once,
oriented by species order), and bumps `proteins_nb_neighbours` for `p` with
`pp`'s species and for `pp` with `p`'s species.  The state below also keeps
a ghost `events` list recording each processed encounter, which supports
stating the processed-exactly-once property. -/

/-- The normalized unordered key `(min(p, pp), max(p, pp))`. -/
def normPair {n : ℕ} (p pp : Fin n) : Fin n × Fin n :=
  if p ≤ pp then (p, pp) else (pp, p)

structure FrameState (n : ℕ) where
  treated : List (Fin n × Fin n)
  events : List (Fin n × Fin n)
  ctcts : Fin n → Fin n → ℕ
  neighb : Fin n → ℕ → ℕ

/-- The residue-contact count used for both scalar increments of a
processed pair: the distance matrix is oriented with the lower species
first, and its below-cutoff entry count (`cnt`, as a function of the
ordered protein pair) is computed once and reused. -/
def cntUsed {n : ℕ} (sp : Fin n → ℕ) (cnt : Fin n → Fin n → ℕ) (p pp : Fin n) : ℕ :=
  if sp p < sp pp then cnt p pp else cnt pp p

/-- The body of the treated branch for pair `(p, pp)`. -/
def pairUpdate {n : ℕ} (sp : Fin n → ℕ) (cnt : Fin n → Fin n → ℕ)
    (st : FrameState n) (p pp : Fin n) : FrameState n :=
  { treated := st.treated ++ [normPair p pp]
    events := st.events ++ [(p, pp)]
    ctcts := fun a b => st.ctcts a b
      + (if a = p ∧ b = pp then cntUsed sp cnt p pp else 0)
      + (if a = pp ∧ b = p then cntUsed sp cnt p pp else 0)
    neighb := fun a s => st.neighb a s
      + (if a = p ∧ s = sp pp then 1 else 0)
      + (if a = pp ∧ s = sp p then 1 else 0) }

/-- One neighbour visit: skip when the normalized key is already treated. -/
def stepInner {n : ℕ} (sp : Fin n → ℕ) (cnt : Fin n → Fin n → ℕ) (p : Fin n)
    (st : FrameState n) (pp : Fin n) : FrameState n :=
  if normPair p pp ∈ st.treated then st else pairUpdate sp cnt st p pp

/-- The neighbour list of `p` in the cluster graph. -/
def neighList {n : ℕ} (adj : Fin n → Fin n → Bool) (p : Fin n) : List (Fin n) :=
  (List.finRange n).filter (fun pp => adj p pp)

/-- Processing one cluster: visit every member's neighbours. -/
def procCluster {n : ℕ} (adj : Fin n → Fin n → Bool) (sp : Fin n → ℕ)
    (cnt : Fin n → Fin n → ℕ) (cluster : List (Fin n)) (st : FrameState n) :
    FrameState n :=
  cluster.foldl (fun st1 p => (neighList adj p).foldl (stepInner sp cnt p) st1) st

/-- Processing one frame: per cluster the treated list is reset
(`tmp_pairs_treated = []`) before its members are visited. -/
def procFrame {n : ℕ} (adj : Fin n → Fin n → Bool) (sp : Fin n → ℕ)
    (cnt : Fin n → Fin n → ℕ) (clusters : List (List (Fin n)))
    (st : FrameState n) : FrameState n :=
  clusters.foldl (fun st c =>
    procCluster adj sp cnt c { st with treated := [] }) st

/-- Symmetry of the per-protein total-contact matrix. -/
def SymmMat {n : ℕ} (f : Fin n → Fin n → ℕ) : Prop := ∀ a b, f a b = f b a

lemma pairUpdate_symm {n : ℕ} (sp : Fin n → ℕ) (cnt : Fin n → Fin n → ℕ)
    (st : FrameState n) (p pp : Fin n) (h : SymmMat st.ctcts) :
    SymmMat (pairUpdate sp cnt st p pp).ctcts := by
  intro a b
  simp only [pairUpdate]
  rw [h a b]
  have hr1 : (b = p ∧ a = pp) ↔ (a = pp ∧ b = p) := and_comm
  have hr2 : (b = pp ∧ a = p) ↔ (a = p ∧ b = pp) := and_comm
  rw [if_congr hr1 rfl rfl, if_congr hr2 rfl rfl]
  ring

lemma stepInner_symm {n : ℕ} (sp : Fin n → ℕ) (cnt : Fin n → Fin n → ℕ)
    (p : Fin n) (st : FrameState n) (pp : Fin n) (h : SymmMat st.ctcts) :
    SymmMat (stepInner sp cnt p st pp).ctcts := by
  rw [stepInner]
  by_cases hmem : normPair p pp ∈ st.treated
  · rwa [if_pos hmem]
  · rw [if_neg hmem]
    exact pairUpdate_symm sp cnt st p pp h

lemma foldl_inner_symm {n : ℕ} (sp : Fin n → ℕ) (cnt : Fin n → Fin n → ℕ)
    (p : Fin n) (L : List (Fin n)) (st : FrameState n) (h : SymmMat st.ctcts) :
    SymmMat (L.foldl (stepInner sp cnt p) st).ctcts := by
  induction L generalizing st with
  | nil => exact h
  | cons pp L ih => exact ih _ (stepInner_symm sp cnt p st pp h)

lemma procCluster_symm {n : ℕ} (adj : Fin n → Fin n → Bool) (sp : Fin n → ℕ)
    (cnt : Fin n → Fin n → ℕ) (cluster : List (Fin n)) (st : FrameState n)
    (h : SymmMat st.ctcts) :
    SymmMat (procCluster adj sp cnt cluster st).ctcts := by
  induction cluster generalizing st with
  | nil => exact h
  | cons p c ih => exact ih _ (foldl_inner_symm sp cnt p (neighList adj p) st h)

lemma procFrame_symm {n : ℕ} (adj : Fin n → Fin n → Bool) (sp : Fin n → ℕ)
    (cnt : Fin n → Fin n → ℕ) (clusters : List (List (Fin n)))
    (st : FrameState n) (h : SymmMat st.ctcts) :
    SymmMat (procFrame adj sp cnt clusters st).ctcts := by
  induction clusters generalizing st with
  | nil => exact h
  | cons c cs ih =>
      exact ih _ (procCluster_symm adj sp cnt c { st with treated := [] } h)

lemma normPair_cases {n : ℕ} (p pp a b : Fin n) (h : normPair p pp = normPair a b) :
    (p = a ∧ pp = b) ∨ (p = b ∧ pp = a) := by
  rw [normPair, normPair] at h
  by_cases h1 : p ≤ pp
  · by_cases h2 : a ≤ b
    · rw [if_pos h1, if_pos h2] at h
      simp only [Prod.mk.injEq] at h
      exact Or.inl h
    · rw [if_pos h1, if_neg h2] at h
      simp only [Prod.mk.injEq] at h
      exact Or.inr ⟨h.1, h.2⟩
  · by_cases h2 : a ≤ b
    · rw [if_neg h1, if_pos h2] at h
      simp only [Prod.mk.injEq] at h
      exact Or.inr ⟨h.2, h.1⟩
    · rw [if_neg h1, if_neg h2] at h
      simp only [Prod.mk.injEq] at h
      exact Or.inl ⟨h.2, h.1⟩

lemma stepInner_treated_mono {n : ℕ} (sp : Fin n → ℕ) (cnt : Fin n → Fin n → ℕ)
    (p : Fin n) (st : FrameState n) (pp : Fin n) (x : Fin n × Fin n)
    (hx : x ∈ st.treated) : x ∈ (stepInner sp cnt p st pp).treated := by
  rw [stepInner]
  by_cases hmem : normPair p pp ∈ st.treated
  · rwa [if_pos hmem]
  · rw [if_neg hmem]
    exact List.mem_append_left _ hx

lemma foldlInner_treated_mono {n : ℕ} (sp : Fin n → ℕ) (cnt : Fin n → Fin n → ℕ)
    (p : Fin n) (L : List (Fin n)) (st : FrameState n) (x : Fin n × Fin n)
    (hx : x ∈ st.treated) : x ∈ (L.foldl (stepInner sp cnt p) st).treated := by
  induction L generalizing st with
  | nil => exact hx
  | cons pp L ih => exact ih _ (stepInner_treated_mono sp cnt p st pp x hx)

lemma procCluster_treated_mono {n : ℕ} (adj : Fin n → Fin n → Bool)
    (sp : Fin n → ℕ) (cnt : Fin n → Fin n → ℕ) (c : List (Fin n))
    (st : FrameState n) (x : Fin n × Fin n) (hx : x ∈ st.treated) :
    x ∈ (procCluster adj sp cnt c st).treated := by
  induction c generalizing st with
  | nil => exact hx
  | cons p c ih =>
      exact ih _ (foldlInner_treated_mono sp cnt p (neighList adj p) st x hx)

lemma mem_neighList {n : ℕ} (adj : Fin n → Fin n → Bool) (p pp : Fin n) :
    pp ∈ neighList adj p ↔ adj p pp = true := by
  simp [neighList, List.mem_filter, List.mem_finRange]

lemma foldlInner_treated_sub {n : ℕ} (sp : Fin n → ℕ) (cnt : Fin n → Fin n → ℕ)
    (p : Fin n) (L : List (Fin n)) (st : FrameState n) (x : Fin n × Fin n)
    (hx : x ∈ (L.foldl (stepInner sp cnt p) st).treated) :
    x ∈ st.treated ∨ ∃ pp ∈ L, x = normPair p pp := by
  induction L generalizing st with
  | nil => exact Or.inl hx
  | cons pp L ih =>
      rcases ih _ hx with hmem | ⟨pp', hpp', rfl⟩
      · rw [stepInner] at hmem
        by_cases hc : normPair p pp ∈ st.treated
        · rw [if_pos hc] at hmem
          exact Or.inl hmem
        · rw [if_neg hc] at hmem
          simp only [pairUpdate] at hmem
          rcases List.mem_append.mp hmem with hmem | hmem
          · exact Or.inl hmem
          · simp only [List.mem_singleton] at hmem
            exact Or.inr ⟨pp, by simp, hmem⟩
      · exact Or.inr ⟨pp', by simp [hpp'], rfl⟩

lemma procCluster_treated_sub {n : ℕ} (adj : Fin n → Fin n → Bool)
    (sp : Fin n → ℕ) (cnt : Fin n → Fin n → ℕ) (c : List (Fin n))
    (st : FrameState n) (x : Fin n × Fin n)
    (hx : x ∈ (procCluster adj sp cnt c st).treated) :
    x ∈ st.treated ∨ ∃ p ∈ c, ∃ pp, adj p pp = true ∧ x = normPair p pp := by
  induction c generalizing st with
  | nil => exact Or.inl hx
  | cons p c ih =>
      rcases ih _ hx with hmem | ⟨p', hp', pp, hadj, rfl⟩
      · rcases foldlInner_treated_sub sp cnt p (neighList adj p) st x hmem with
          hmem | ⟨pp, hpp, rfl⟩
        · exact Or.inl hmem
        · exact Or.inr ⟨p, by simp, pp, (mem_neighList adj p pp).mp hpp, rfl⟩
      · exact Or.inr ⟨p', by simp [hp'], pp, hadj, rfl⟩

lemma foldlInner_treated_hit {n : ℕ} (sp : Fin n → ℕ) (cnt : Fin n → Fin n → ℕ)
    (p : Fin n) (L : List (Fin n)) (st : FrameState n) (pp0 : Fin n)
    (hpp0 : pp0 ∈ L) :
    normPair p pp0 ∈ (L.foldl (stepInner sp cnt p) st).treated := by
  induction L generalizing st with
  | nil => exact absurd hpp0 (List.not_mem_nil pp0)
  | cons pp L ih =>
      rcases List.mem_cons.mp hpp0 with rfl | hpp0
      · refine foldlInner_treated_mono sp cnt p L _ _ ?_
        rw [stepInner]
        by_cases hc : normPair p pp0 ∈ st.treated
        · rwa [if_pos hc]
        · rw [if_neg hc]
          simp [pairUpdate]
      · exact ih _ hpp0

lemma procCluster_treated_hit {n : ℕ} (adj : Fin n → Fin n → Bool)
    (sp : Fin n → ℕ) (cnt : Fin n → Fin n → ℕ) (c : List (Fin n))
    (st : FrameState n) (a b : Fin n) (ha : a ∈ c) (hadj : adj a b = true) :
    normPair a b ∈ (procCluster adj sp cnt c st).treated := by
  induction c generalizing st with
  | nil => exact absurd ha (List.not_mem_nil a)
  | cons p c ih =>
      rcases List.mem_cons.mp ha with rfl | ha
      · refine procCluster_treated_mono adj sp cnt c _ _ ?_
        exact foldlInner_treated_hit sp cnt a (neighList adj a) st b
          ((mem_neighList adj a b).mpr hadj)
      · exact ih _ ha

/-- Number of processed events whose unordered key is `q`. -/
def evCount {n : ℕ} (q : Fin n × Fin n) (st : FrameState n) : ℕ :=
  st.events.countP (fun e => decide (normPair e.1 e.2 = q))

lemma stepInner_count_inv {n : ℕ} (sp : Fin n → ℕ) (cnt : Fin n → Fin n → ℕ)
    (p : Fin n) (q : Fin n × Fin n) (B : ℕ) (st : FrameState n) (pp : Fin n)
    (h : evCount q st = B + (if q ∈ st.treated then 1 else 0)) :
    evCount q (stepInner sp cnt p st pp)
      = B + (if q ∈ (stepInner sp cnt p st pp).treated then 1 else 0) := by
  rw [stepInner]
  by_cases hc : normPair p pp ∈ st.treated
  · rwa [if_pos hc]
  · rw [if_neg hc]
    have hev : evCount q (pairUpdate sp cnt st p pp)
        = evCount q st + (if normPair p pp = q then 1 else 0) := by
      simp only [evCount, pairUpdate, List.countP_append, List.countP_cons,
        List.countP_nil]
      by_cases he : normPair p pp = q <;> simp [he]
    have htr : (q ∈ (pairUpdate sp cnt st p pp).treated)
        ↔ (q ∈ st.treated ∨ q = normPair p pp) := by
      simp [pairUpdate, List.mem_append]
    rw [hev, h]
    by_cases he : normPair p pp = q
    · have hqt : q ∉ st.treated := he ▸ hc
      rw [if_neg hqt, if_pos he, if_pos (htr.mpr (Or.inr he.symm))]
    · have hiff : (q ∈ (pairUpdate sp cnt st p pp).treated) ↔ q ∈ st.treated := by
        rw [htr]
        exact ⟨fun hh => hh.resolve_right (fun hq => he hq.symm), Or.inl⟩
      rw [if_neg he]
      by_cases hq : q ∈ st.treated
      · rw [if_pos hq, if_pos (hiff.mpr hq)]
      · rw [if_neg hq, if_neg (fun hh => hq (hiff.mp hh))]

lemma foldlInner_count_inv {n : ℕ} (sp : Fin n → ℕ) (cnt : Fin n → Fin n → ℕ)
    (p : Fin n) (q : Fin n × Fin n) (B : ℕ) (L : List (Fin n))
    (st : FrameState n)
    (h : evCount q st = B + (if q ∈ st.treated then 1 else 0)) :
    evCount q (L.foldl (stepInner sp cnt p) st)
      = B + (if q ∈ (L.foldl (stepInner sp cnt p) st).treated then 1 else 0) := by
  induction L generalizing st with
  | nil => exact h
  | cons pp L ih => exact ih _ (stepInner_count_inv sp cnt p q B st pp h)

lemma procCluster_count_inv {n : ℕ} (adj : Fin n → Fin n → Bool)
    (sp : Fin n → ℕ) (cnt : Fin n → Fin n → ℕ) (q : Fin n × Fin n) (B : ℕ)
    (c : List (Fin n)) (st : FrameState n)
    (h : evCount q st = B + (if q ∈ st.treated then 1 else 0)) :
    evCount q (procCluster adj sp cnt c st)
      = B + (if q ∈ (procCluster adj sp cnt c st).treated then 1 else 0) := by
  induction c generalizing st with
  | nil => exact h
  | cons p c ih =>
      exact ih _ (foldlInner_count_inv sp cnt p q B (neighList adj p) st h)

/-- One cluster realizes the unordered key `q` when some member has a
neighbour forming exactly that key. -/
def RealizedIn {n : ℕ} (adj : Fin n → Fin n → Bool) (q : Fin n × Fin n)
    (c : List (Fin n)) : Prop :=
  ∃ p, p ∈ c ∧ ∃ pp, adj p pp = true ∧ q = normPair p pp

lemma procCluster_evCount_realized {n : ℕ} (adj : Fin n → Fin n → Bool)
    (sp : Fin n → ℕ) (cnt : Fin n → Fin n → ℕ) (q : Fin n × Fin n)
    (c : List (Fin n)) (st : FrameState n) (ht : st.treated = [])
    (hr : RealizedIn adj q c) :
    evCount q (procCluster adj sp cnt c st) = evCount q st + 1 := by
  have h0 : evCount q st = evCount q st + (if q ∈ st.treated then 1 else 0) := by
    rw [ht]
    simp
  rw [procCluster_count_inv adj sp cnt q (evCount q st) c st h0]
  rcases hr with ⟨p, hp, pp, hadj, rfl⟩
  rw [if_pos (procCluster_treated_hit adj sp cnt c st p pp hp hadj)]

lemma procCluster_evCount_not_realized {n : ℕ} (adj : Fin n → Fin n → Bool)
    (sp : Fin n → ℕ) (cnt : Fin n → Fin n → ℕ) (q : Fin n × Fin n)
    (c : List (Fin n)) (st : FrameState n) (ht : st.treated = [])
    (hr : ¬ RealizedIn adj q c) :
    evCount q (procCluster adj sp cnt c st) = evCount q st := by
  have h0 : evCount q st = evCount q st + (if q ∈ st.treated then 1 else 0) := by
    rw [ht]
    simp
  rw [procCluster_count_inv adj sp cnt q (evCount q st) c st h0]
  have hnot : q ∉ (procCluster adj sp cnt c st).treated := by
    intro hq
    rcases procCluster_treated_sub adj sp cnt c st q hq with hmem | ⟨p, hp, pp, hadj, rfl⟩
    · rw [ht] at hmem
      exact List.not_mem_nil q hmem
    · exact hr ⟨p, hp, pp, hadj, rfl⟩
  rw [if_neg hnot]
  omega

lemma procFrame_evCount_none {n : ℕ} (adj : Fin n → Fin n → Bool)
    (sp : Fin n → ℕ) (cnt : Fin n → Fin n → ℕ) (q : Fin n × Fin n)
    (clusters : List (List (Fin n))) (st : FrameState n)
    (hnone : ∀ c ∈ clusters, ¬ RealizedIn adj q c) :
    evCount q (procFrame adj sp cnt clusters st) = evCount q st := by
  induction clusters generalizing st with
  | nil => rfl
  | cons c cs ih =>
      rw [procFrame, List.foldl_cons]
      have step : evCount q (procCluster adj sp cnt c { st with treated := [] })
          = evCount q st :=
        procCluster_evCount_not_realized adj sp cnt q c _ rfl (hnone c (by simp))
      have := ih (procCluster adj sp cnt c { st with treated := [] })
        (fun d hd => hnone d (by simp [hd]))
      rw [procFrame] at this
      rw [this, step]

lemma procFrame_evCount_main {n : ℕ} (adj : Fin n → Fin n → Bool)
    (sp : Fin n → ℕ) (cnt : Fin n → Fin n → ℕ) (a b : Fin n)
    (hadj : adj a b = true) :
    ∀ (clusters : List (List (Fin n))) (st : FrameState n),
      (∀ c ∈ clusters, ∀ p ∈ c, ∀ pp, adj p pp = true → pp ∈ c) →
      clusters.Pairwise (fun c d => ∀ x, x ∈ c → x ∉ d) →
      (∃ c ∈ clusters, a ∈ c) →
      evCount (normPair a b) (procFrame adj sp cnt clusters st)
        = evCount (normPair a b) st + 1 := by
  intro clusters
  induction clusters with
  | nil =>
      intro st _ _ hmem
      rcases hmem with ⟨c, hc, _⟩
      exact absurd hc (List.not_mem_nil c)
  | cons c cs ih =>
      intro st hcl hdisj hmem
      rcases List.pairwise_cons.mp hdisj with ⟨hd, hdisj'⟩
      rw [procFrame, List.foldl_cons]
      by_cases hac : a ∈ c
      · have hbc : b ∈ c := hcl c (by simp) a hac b hadj
        have hstep : evCount (normPair a b)
            (procCluster adj sp cnt c { st with treated := [] })
            = evCount (normPair a b) st + 1 :=
          procCluster_evCount_realized adj sp cnt _ c _ rfl ⟨a, hac, b, hadj, rfl⟩
        have hnone : ∀ d ∈ cs, ¬ RealizedIn adj (normPair a b) d := by
          intro d hdmem hreal
          rcases hreal with ⟨p, hp, pp, _, heq⟩
          rcases normPair_cases p pp a b heq.symm with ⟨rfl, rfl⟩ | ⟨rfl, rfl⟩
          · exact hd d hdmem p hac hp
          · exact hd d hdmem p hbc hp
        have := procFrame_evCount_none adj sp cnt (normPair a b) cs
          (procCluster adj sp cnt c { st with treated := [] }) hnone
        rw [procFrame] at this
        rw [this, hstep]
      · have hnoth : ¬ RealizedIn adj (normPair a b) c := by
          intro hreal
          rcases hreal with ⟨p, hp, pp, hadj', heq⟩
          rcases normPair_cases p pp a b heq.symm with ⟨rfl, rfl⟩ | ⟨rfl, rfl⟩
          · exact hac hp
          · exact hac (hcl c (by simp) p hp pp hadj')
        have hstep : evCount (normPair a b)
            (procCluster adj sp cnt c { st with treated := [] })
            = evCount (normPair a b) st :=
          procCluster_evCount_not_realized adj sp cnt _ c _ rfl hnoth
        have hmem' : ∃ d ∈ cs, a ∈ d := by
          rcases hmem with ⟨c₀, hc₀, hac₀⟩
          rcases List.mem_cons.mp hc₀ with rfl | hc₀
          · exact absurd hac₀ hac
          · exact ⟨c₀, hc₀, hac₀⟩
        have := ih (procCluster adj sp cnt c { st with treated := [] })
          (fun d hdm => hcl d (by simp [hdm])) hdisj' hmem'
        rw [procFrame] at this
        rw [this, hstep]

/-- C7: in a frame whose clusters are adjacency-closed and pairwise
disjoint, every unordered adjacent pair of cluster members is processed
exactly once (its normalized key occurs exactly once among the frame's
processed events, regardless of iteration order); each processed pair adds
the same residue-contact count to the per-protein total-contact entries in
both directions and bumps both proteins' neighbour-species tallies by one;
and the total-contact matrix stays symmetric throughout accumulation: every
single pair update preserves symmetry, and after any prefix of the frame's
clusters the matrix is symmetric. -/
theorem C7_pairs_once_symmetric {n : ℕ} (adj : Fin n → Fin n → Bool)
    (sp : Fin n → ℕ) (cnt : Fin n → Fin n → ℕ)
    (clusters : List (List (Fin n))) (st0 : FrameState n)
    (hcl : ∀ c ∈ clusters, ∀ p ∈ c, ∀ pp, adj p pp = true → pp ∈ c)
    (hdisj : clusters.Pairwise (fun c d => ∀ x, x ∈ c → x ∉ d))
    (hev0 : st0.events = []) :
    (∀ a b, adj a b = true → (∃ c ∈ clusters, a ∈ c) →
      evCount (normPair a b) (procFrame adj sp cnt clusters st0) = 1) ∧
    (∀ (st : FrameState n) (p pp : Fin n), p ≠ pp →
      (pairUpdate sp cnt st p pp).ctcts p pp
          = st.ctcts p pp + cntUsed sp cnt p pp ∧
      (pairUpdate sp cnt st p pp).ctcts pp p
          = st.ctcts pp p + cntUsed sp cnt p pp ∧
      (pairUpdate sp cnt st p pp).neighb p (sp pp) = st.neighb p (sp pp) + 1 ∧
      (pairUpdate sp cnt st p pp).neighb pp (sp p) = st.neighb pp (sp p) + 1) ∧
    (∀ (st : FrameState n) (p pp : Fin n), SymmMat st.ctcts →
      SymmMat (pairUpdate sp cnt st p pp).ctcts) ∧
    (SymmMat st0.ctcts →
      ∀ k, SymmMat (procFrame adj sp cnt (clusters.take k) st0).ctcts) := by
  refine ⟨?_, ?_, ?_, ?_⟩
  · intro a b hadj hmem
    have h := procFrame_evCount_main adj sp cnt a b hadj clusters st0 hcl hdisj hmem
    rw [h]
    have : evCount (normPair a b) st0 = 0 := by
      rw [evCount, hev0]
      rfl
    rw [this]
  · intro st p pp hne
    refine ⟨?_, ?_, ?_, ?_⟩ <;> simp [pairUpdate, hne, Ne.symm hne]
  · exact fun st p pp h => pairUpdate_symm sp cnt st p pp h
  · intro h0 k
    exact procFrame_symm adj sp cnt (clusters.take k) st0 h0

/-- C7 witness: two proteins forming one mutually adjacent cluster — the
pair `(0, 1)` is processed exactly once in the frame, and a concrete pair
update adds its contact count to both directions. -/
theorem C7_witness :
    evCount (normPair 0 1)
      (procFrame (fun x y : Fin 2 => decide (x ≠ y)) (fun _ => 0) (fun _ _ => 4)
        [[0, 1]] ⟨[], [], fun _ _ => 0, fun _ _ => 0⟩) = 1 ∧
    (pairUpdate (fun _ : Fin 2 => 0) (fun _ _ => 4)
      ⟨[], [], fun _ _ => 0, fun _ _ => 0⟩ 0 1).ctcts 0 1 = 4 ∧
    (pairUpdate (fun _ : Fin 2 => 0) (fun _ _ => 4)
      ⟨[], [], fun _ _ => 0, fun _ _ => 0⟩ 0 1).ctcts 1 0 = 4 := by
  have h := C7_pairs_once_symmetric (fun x y : Fin 2 => decide (x ≠ y))
    (fun _ => 0) (fun _ _ => 4) [[0, 1]] ⟨[], [], fun _ _ => 0, fun _ _ => 0⟩
    (by decide) (by simp) rfl
  have h2 := h.2.1 ⟨[], [], fun _ _ => 0, fun _ _ => 0⟩ 0 1 (by decide)
  exact ⟨h.1 0 1 (by decide) ⟨[0, 1], by simp, by simp⟩,
    by simpa [cntUsed] using h2.1, by simpa [cntUsed] using h2.2.1⟩

end ClusteringProt
